import Mathlib

set_option maxRecDepth 4000

/-!
Verification of a Python BitTorrent client (bencode codec, torrent metainfo,
block/piece assembler, wire messages, tracker frames) against its
natural-language specification.  Python byte strings are modelled as
`List Nat` (each entry a byte value), Python ints as `Int` or `Nat`,
Python classes as structures, and methods as pure state-passing functions.
Wall-clock timestamps (`time.time()`) are modelled as an explicit `now : Nat`
argument; no verified property observes them.
-/

namespace Spec2Proof

/-! ## Block model (src/block.py) -/

/-- BLOCK_SIZE = 2 ** 14, the standard block size from src/block.py. -/
def BLOCK_SIZE : Nat := 2 ^ 14

/-- Block states, from `class State(Enum)` in src/block.py. -/
inductive State where
  | FREE
  | PENDING
  | FULL
deriving DecidableEq, Repr

/-- A block of data in a torrent piece, from `class Block` in src/block.py.
`last_seen` is the wall-clock timestamp, modelled as a plain `Nat`. -/
structure Block where
  state : State
  block_size : Nat
  data : List Nat
  last_seen : Nat
deriving DecidableEq, Repr

instance : Inhabited Block := ⟨⟨State.FREE, BLOCK_SIZE, [], 0⟩⟩

namespace Block

/-- `Block(block_size=size)`: the default-constructed block used throughout
the code base (state FREE, empty data).  The constructor's validation
(`0 < block_size ≤ 2*BLOCK_SIZE`) appears as a hypothesis of the
reachability relation below. -/
def init (size : Nat) (now : Nat) : Block :=
  ⟨State.FREE, size, [], now⟩

/-- `Block.set_data` from src/block.py: empty data is refused (returns False,
no state change); over-long data is truncated to `block_size`; the state is
set to FULL in every accepted case, even for partial data (the code comments
say partial data is "still marked FULL").  The returned Bool is the Python
return value. -/
def set_data (now : Nat) (dat : List Nat) (b : Block) : Bool × Block :=
  if dat = [] then
    (false, b)
  else
    let d := if dat.length > b.block_size then dat.take b.block_size else dat
    (true, { b with data := d, state := State.FULL, last_seen := now })

/-- `Block.mark_pending` from src/block.py. -/
def mark_pending (now : Nat) (b : Block) : Block :=
  { b with state := State.PENDING, last_seen := now }

/-- `Block.mark_free` from src/block.py. -/
def mark_free (now : Nat) (b : Block) : Block :=
  { b with state := State.FREE, data := [], last_seen := now }

/-- `Block.validate` from src/block.py: the code's own consistency check. -/
def validate (b : Block) : Bool :=
  match b.state with
  | State.FREE => b.data.length = 0
  | State.PENDING => b.data.length ≤ b.block_size
  | State.FULL => 0 < b.data.length ∧ b.data.length ≤ b.block_size

end Block

/-- `data.ljust(n, b'\x00')` / `data[:n]` as performed by `Piece.set_block`
(src/piece.py lines 82-86): truncate over-long data, zero-pad short data,
so the result always has length exactly `n`. -/
def padTrunc (dat : List Nat) (n : Nat) : List Nat :=
  if dat.length > n then dat.take n
  else dat ++ List.replicate (n - dat.length) 0

/-- The effect of `Piece.set_block` on the single targeted block, once the
piece-level guards have routed the delivery to it (src/piece.py lines 76-94):
a FULL block is left unchanged; otherwise the data is truncated or padded to
the block's size and the block is marked FULL. -/
def Block.set_block_data (now : Nat) (dat : List Nat) (b : Block) : Block :=
  if b.state = State.FULL then b
  else { b with data := padTrunc dat b.block_size,
                state := State.FULL, last_seen := now }

/-- Reachable block states: a block constructed as in `_init_blocks` /
`create_blocks_for_piece` (default state FREE, empty data, validated size)
followed by any sequence of `set_data`, `mark_pending`, `mark_free`, and
`Piece.set_block` deliveries (with non-empty data, as guaranteed by the
`if not data` guard of set_block). -/
inductive BlockReachable : Block → Prop where
  | init (size now : Nat) (hpos : 0 < size) (hle : size ≤ 2 * BLOCK_SIZE) :
      BlockReachable (Block.init size now)
  | set_data (b : Block) (now : Nat) (dat : List Nat) :
      BlockReachable b → BlockReachable (Block.set_data now dat b).2
  | mark_pending (b : Block) (now : Nat) :
      BlockReachable b → BlockReachable (Block.mark_pending now b)
  | mark_free (b : Block) (now : Nat) :
      BlockReachable b → BlockReachable (Block.mark_free now b)
  | set_block (b : Block) (now : Nat) (dat : List Nat) (hne : dat ≠ []) :
      BlockReachable b → BlockReachable (Block.set_block_data now dat b)

/-! ## Piece model (src/piece.py) -/

/-- A torrent piece, from `class Piece` in src/piece.py.  The fields
`files`, `creation_time` and `completion_time` are omitted: no verified
property observes them. -/
structure Piece where
  piece_index : Nat
  piece_size : Nat
  piece_hash : List Nat
  is_full : Bool
  raw_data : List Nat
  blocks : List Block
  hash_verification_count : Nat
deriving DecidableEq, Repr

namespace Piece

/-- `int(math.ceil(float(piece_size) / BLOCK_SIZE))` (exact for realistic
sizes, where the float division is exact enough for the ceiling). -/
def number_of_blocks (piece_size : Nat) : Nat :=
  (piece_size + BLOCK_SIZE - 1) / BLOCK_SIZE

/-- `Piece._init_blocks` from src/piece.py: all blocks of size BLOCK_SIZE
except a possibly-smaller last block; a single block of the full piece size
when the piece fits in one block. -/
def initBlocks (piece_size : Nat) (now : Nat) : List Block :=
  let nb := number_of_blocks piece_size
  if nb > 1 then
    (List.range nb).map (fun i =>
      if i = nb - 1 then
        let remaining := piece_size - i * BLOCK_SIZE
        Block.init (if remaining > 0 then remaining else BLOCK_SIZE) now
      else
        Block.init BLOCK_SIZE now)
  else
    [Block.init piece_size now]

/-- `Piece.__init__`: the constructor validates `piece_size > 0` and a
20-byte hash; those validations appear as hypotheses in the theorems. -/
def init (index size : Nat) (hash : List Nat) (now : Nat) : Piece :=
  ⟨index, size, hash, false, [], initBlocks size now, 0⟩

/-- `Piece.set_block` from src/piece.py: empty data and completed pieces are
ignored; the block index is `offset / BLOCK_SIZE` and out-of-range indices
are ignored; a FULL block is left unchanged; otherwise the data is truncated
or zero-padded to the block's size and the block set to FULL. -/
def set_block (now : Nat) (offset : Nat) (dat : List Nat) (p : Piece) : Piece :=
  if dat = [] then p
  else if p.is_full then p
  else
    let block_index := offset / BLOCK_SIZE
    if block_index < p.blocks.length then
      let b := p.blocks.getD block_index default
      { p with blocks := p.blocks.set block_index (Block.set_block_data now dat b) }
    else p

/-- `Piece.are_all_blocks_full` from src/piece.py. -/
def are_all_blocks_full (p : Piece) : Bool :=
  p.is_full || p.blocks.all (fun b => b.state = State.FULL)

/-- `Piece._merge_blocks` from src/piece.py: the concatenation of all block
data, in block order. -/
def mergeBlocks (p : Piece) : List Nat :=
  (p.blocks.map Block.data).flatten

/-- `Piece._valid_blocks` from src/piece.py. `sha1` is the SHA-1 digest
function, kept abstract (a parameter of every hash-dependent definition). -/
def validBlocks (sha1 : List Nat → List Nat) (p : Piece) (dat : List Nat) : Bool :=
  if dat = [] then false
  else if dat.length ≠ p.piece_size then false
  else sha1 dat = p.piece_hash

/-- `Piece._handle_corruption` from src/piece.py: reset all blocks, drop the
raw data, mark incomplete. -/
def handleCorruption (now : Nat) (p : Piece) : Piece :=
  { p with blocks := initBlocks p.piece_size now, raw_data := [], is_full := false }

/-- `Piece.set_to_full` from src/piece.py: merge blocks, check the size,
verify the hash (one silent retry: the first failure only re-initializes the
blocks, the second also counts as corruption); on success mark the piece
full and keep the merged data. -/
def set_to_full (sha1 : List Nat → List Nat) (now : Nat) (p : Piece) :
    Bool × Piece :=
  if ¬ p.are_all_blocks_full then (false, p)
  else
    let dat := p.mergeBlocks
    if dat.length ≠ p.piece_size then (false, p.handleCorruption now)
    else if ¬ p.validBlocks sha1 dat then
      let p1 := { p with hash_verification_count := p.hash_verification_count + 1 }
      if p1.hash_verification_count ≤ 1 then
        (false, { p1 with blocks := initBlocks p1.piece_size now })
      else (false, p1.handleCorruption now)
    else
      (true, { p with is_full := true, raw_data := dat })

/-- `Piece.get_empty_block` from src/piece.py: on a non-full piece, return a
request for the first FREE block (marking it PENDING); failing that, for the
first stale PENDING block (last seen more than 15 seconds ago).  Returns the
request `(piece_index, block_offset, block_size)` and the updated piece. -/
def get_empty_block (now : Nat) (p : Piece) :
    Option (Nat × Nat × Nat) × Piece :=
  if p.is_full then (none, p)
  else
    match p.blocks.findIdx? (fun b => b.state = State.FREE) with
    | some i =>
        let b := p.blocks.getD i default
        (some (p.piece_index, i * BLOCK_SIZE, b.block_size),
         { p with blocks := p.blocks.set i (Block.mark_pending now b) })
    | none =>
        match p.blocks.findIdx?
            (fun b => b.state = State.PENDING && now - b.last_seen > 15) with
        | some i =>
            let b := p.blocks.getD i default
            (some (p.piece_index, i * BLOCK_SIZE, b.block_size),
             { p with blocks := p.blocks.set i (Block.mark_pending now b) })
        | none => (none, p)

end Piece

instance : Inhabited Piece := ⟨⟨0, 1, [], false, [], [], 0⟩⟩

/-! ## PiecesManager model (src/pieces_manager.py) -/

/-- The piece-manager state, from `class PiecesManager` in
src/pieces_manager.py.  File handling and the torrent back-reference are
omitted; `files` (the FileSegment list) is modelled separately below. -/
structure PiecesManager where
  pieces : List Piece
  bitfield : List Bool
  complete_pieces : Nat
  total_downloaded : Nat
deriving Repr

namespace PiecesManager

/-- `PiecesManager.update_bitfield` from src/pieces_manager.py. -/
def update_bitfield (piece_index : Nat) (pm : PiecesManager) : PiecesManager :=
  if piece_index < pm.bitfield.length then
    { pm with bitfield := pm.bitfield.set piece_index true }
  else pm

/-- `PiecesManager.receive_block_piece` from src/pieces_manager.py:
validate the piece index and non-emptiness of the data, ignore completed
pieces, hand the block to `Piece.set_block`, and if all blocks of the piece
are now full attempt `set_to_full` (disk writing is outside the model). -/
def receive_block_piece (sha1 : List Nat → List Nat) (now : Nat)
    (piece_index offset : Nat) (block_data : List Nat)
    (pm : PiecesManager) : PiecesManager :=
  if piece_index ≥ pm.pieces.length ∨ block_data = [] then pm
  else
    let p := pm.pieces.getD piece_index default
    if p.is_full then pm
    else
      let p1 := p.set_block now offset block_data
      let pm1 := { pm with pieces := pm.pieces.set piece_index p1,
                           total_downloaded := pm.total_downloaded + block_data.length }
      if p1.are_all_blocks_full then
        let r := p1.set_to_full sha1 now
        let pm2 := { pm1 with pieces := pm1.pieces.set piece_index r.2 }
        if r.1 then
          let pm3 := { pm2 with complete_pieces := pm2.complete_pieces + 1 }
          pm3.update_bitfield piece_index
        else pm2
      else pm1

end PiecesManager

/-! ## Supporting lemmas for the block/piece claims -/

theorem padTrunc_length (dat : List Nat) (n : Nat) : (padTrunc dat n).length = n := by
  unfold padTrunc
  split
  · simp; omega
  · simp; omega

theorem initBlocks_mem (s now : Nat) :
    ∀ b ∈ Piece.initBlocks s now, b.state = State.FREE ∧ b.data = [] := by
  intro b hb
  unfold Piece.initBlocks at hb
  dsimp only at hb
  split at hb
  · simp only [List.mem_map, List.mem_range] at hb
    obtain ⟨i, _, hi⟩ := hb
    split at hi <;> simp [← hi, Block.init]
  · simp only [List.mem_singleton] at hb
    simp [hb, Block.init]

theorem initBlocks_head (s now : Nat) :
    ∃ b l, Piece.initBlocks s now = b :: l ∧ b.state = State.FREE := by
  unfold Piece.initBlocks
  dsimp only
  split
  · rename_i h
    have h2 : Piece.number_of_blocks s = (Piece.number_of_blocks s - 1) + 1 := by omega
    rw [h2, List.range_succ_eq_map, List.map_cons]
    refine ⟨_, _, rfl, ?_⟩
    dsimp only
    split <;> simp [Block.init]
  · exact ⟨_, _, rfl, rfl⟩

theorem get_empty_block_of_initBlocks (p : Piece) (now : Nat)
    (hif : p.is_full = false)
    (hb : ∃ s n0, p.blocks = Piece.initBlocks s n0) :
    ∃ sz, (p.get_empty_block now).1 = some (p.piece_index, 0, sz) := by
  obtain ⟨s, n0, hbl⟩ := hb
  obtain ⟨b0, l, hcons, hfree⟩ := initBlocks_head s n0
  unfold Piece.get_empty_block
  rw [hif]
  simp only [Bool.false_eq_true, if_false]
  rw [hbl, hcons]
  rw [List.findIdx?_cons]
  simp [hfree]

/-! ## Claims C3, C4, C5 -/

/-- C3, counterexample: the claim "FULL implies the length of the data field
equals the block's block_size" is false.  `Block.set_data` accepts data
shorter than the block size and still marks the block FULL (src/block.py
lines 78-81 do this deliberately), so a block of size 2 holding 1 byte of
data in state FULL is reachable. -/
theorem C3_counterexample :
    BlockReachable (Block.set_data 0 [170] (Block.init 2 0)).2 ∧
    (Block.set_data 0 [170] (Block.init 2 0)).2.state = State.FULL ∧
    (Block.set_data 0 [170] (Block.init 2 0)).2.data.length ≠
      (Block.set_data 0 [170] (Block.init 2 0)).2.block_size :=
  ⟨BlockReachable.set_data _ 0 [170]
      (BlockReachable.init 2 0 (by decide) (by decide)),
   by decide, by decide⟩

/-- C3 (amended): for every reachable block, FREE implies empty data, and
FULL implies the data is non-empty and at most block_size bytes (the
invariant the code's own `Block.validate` checks); equality with block_size
does not hold in general because `set_data` marks partial data FULL. -/
theorem C3_block_invariant (b : Block) (h : BlockReachable b) :
    0 < b.block_size ∧
    (b.state = State.FREE → b.data = []) ∧
    (b.state = State.FULL → 0 < b.data.length ∧ b.data.length ≤ b.block_size) := by
  induction h with
  | init size now hpos hle =>
      refine ⟨hpos, fun _ => rfl, ?_⟩
      intro hfull
      simp [Block.init] at hfull
  | set_data b now dat hb ih =>
      unfold Block.set_data
      split
      · exact ih
      · rename_i hne
        refine ⟨ih.1, ?_, ?_⟩
        · intro hfree
          simp at hfree
        · intro _
          dsimp only
          split
          · rename_i hgt
            simp only [List.length_take]
            omega
          · rename_i hle2
            have hpos : 0 < dat.length := List.length_pos.mpr hne
            omega
  | mark_pending b now hb ih =>
      refine ⟨ih.1, ?_, ?_⟩ <;> intro hs <;> simp [Block.mark_pending] at hs
  | mark_free b now hb ih =>
      refine ⟨ih.1, fun _ => rfl, ?_⟩
      intro hs
      simp [Block.mark_free] at hs
  | set_block b now dat hne hb ih =>
      unfold Block.set_block_data
      split
      · exact ih
      · refine ⟨ih.1, ?_, ?_⟩
        · intro hs
          simp at hs
        · intro _
          dsimp only
          rw [padTrunc_length]
          exact ⟨ih.1, le_refl _⟩

/-- Witness for the amended C3 invariant at a concrete reachable block. -/
theorem C3_block_invariant_witness :
    0 < (Block.init 4 0).block_size ∧
    ((Block.init 4 0).state = State.FREE → (Block.init 4 0).data = []) ∧
    ((Block.init 4 0).state = State.FULL →
      0 < (Block.init 4 0).data.length ∧
      (Block.init 4 0).data.length ≤ (Block.init 4 0).block_size) :=
  C3_block_invariant _ (BlockReachable.init 4 0 (by decide) (by decide))

/-- C4: when every block of a not-yet-complete piece is FULL but the merged
data fails SHA-1 verification, `set_to_full` returns false, the piece stays
incomplete, every block is reset to FREE with empty data, and the next
`get_empty_block` call yields the block at offset 0.  (The same holds on
the size-mismatch corruption path; SHA-1 itself is an abstract parameter.) -/
theorem C4_hash_failure_resets (sha1 : List Nat → List Nat) (now now2 : Nat)
    (p : Piece)
    (hif : p.is_full = false)
    (hfull : ∀ b ∈ p.blocks, b.state = State.FULL)
    (hhash : sha1 p.mergeBlocks ≠ p.piece_hash) :
    (p.set_to_full sha1 now).1 = false ∧
    (p.set_to_full sha1 now).2.is_full = false ∧
    (∀ b ∈ (p.set_to_full sha1 now).2.blocks,
        b.state = State.FREE ∧ b.data = []) ∧
    ∃ sz, ((p.set_to_full sha1 now).2.get_empty_block now2).1 =
          some (p.piece_index, 0, sz) := by
  have hall : p.are_all_blocks_full = true := by
    unfold Piece.are_all_blocks_full
    rw [hif]
    simp only [Bool.false_or, List.all_eq_true, decide_eq_true_eq]
    exact hfull
  have hvb : ∀ dat, dat = p.mergeBlocks → p.validBlocks sha1 dat = false := by
    intro dat hdat
    unfold Piece.validBlocks
    split
    · rfl
    · split
      · rfl
      · subst hdat
        simp only [decide_eq_false_iff_not]
        exact hhash
  unfold Piece.set_to_full
  rw [hall]
  simp only [not_true, if_false, Bool.true_eq_false, ite_false]
  split
  · -- size-mismatch path: _handle_corruption
    unfold Piece.handleCorruption
    refine ⟨rfl, rfl, initBlocks_mem _ _, ?_⟩
    exact get_empty_block_of_initBlocks _ now2 rfl ⟨_, _, rfl⟩
  · rw [hvb _ rfl]
    simp only [Bool.false_eq_true, not_false_iff, if_true]
    split
    · -- first hash failure: blocks re-initialized
      refine ⟨rfl, hif, initBlocks_mem _ _, ?_⟩
      exact get_empty_block_of_initBlocks _ now2 hif ⟨_, _, rfl⟩
    · -- repeated failure: _handle_corruption
      unfold Piece.handleCorruption
      refine ⟨rfl, rfl, initBlocks_mem _ _, ?_⟩
      exact get_empty_block_of_initBlocks _ now2 rfl ⟨_, _, rfl⟩

/-- Witness for C4 at a concrete two-byte piece whose single FULL block
fails verification against a hash it cannot match. -/
theorem C4_hash_failure_resets_witness :
    (let p : Piece := ⟨7, 2, List.replicate 20 1, false, [],
        [⟨State.FULL, 2, [5, 6], 0⟩], 0⟩
     (p.set_to_full (fun _ => []) 0).1 = false ∧
     (p.set_to_full (fun _ => []) 0).2.is_full = false ∧
     (∀ b ∈ (p.set_to_full (fun _ => []) 0).2.blocks,
         b.state = State.FREE ∧ b.data = []) ∧
     ∃ sz, ((p.set_to_full (fun _ => []) 0).2.get_empty_block 3).1 =
           some (7, 0, sz)) :=
  C4_hash_failure_resets (fun _ => []) 0 3 _ rfl (by decide) (by decide)

/-- C5, counterexample: the claim "a delivery whose data length differs from
the expected block size is rejected, leaving the block unchanged" is false.
A two-block piece (16384 + 4 bytes) receives 1 byte at offset 16384 through
`receive_block_piece`; 1 differs from the expected 4 (which is also the
truncated tail length), yet the block is zero-padded to 4 bytes and marked
FULL instead of being left FREE and empty. -/
theorem C5_counterexample :
    (let pm : PiecesManager :=
       ⟨[Piece.init 0 (BLOCK_SIZE + 4) (List.replicate 20 1) 0], [false], 0, 0⟩
     let before := (pm.pieces.getD 0 default).blocks.getD 1 default
     let after :=
       (((pm.receive_block_piece (fun _ => []) 0 0 BLOCK_SIZE [170]).pieces.getD
           0 default).blocks.getD 1 default)
     before.state = State.FREE ∧ before.data = [] ∧ before.block_size = 4 ∧
     after.state = State.FULL ∧ after.data = [170, 0, 0, 0]) := by
  decide

/-- C5 (amended): a block delivery with non-empty data to an incomplete
piece, addressed to an in-range block that is not yet FULL, is always
accepted regardless of the data length: the data is truncated or zero-padded
to exactly the block's expected size and the block is marked FULL.  No
size-based rejection occurs anywhere in `set_block` or
`receive_block_piece`. -/
theorem C5_set_block_normalizes (now off : Nat) (dat : List Nat) (p : Piece)
    (hne : dat ≠ []) (hif : p.is_full = false)
    (hlt : off / BLOCK_SIZE < p.blocks.length)
    (hnf : (p.blocks.getD (off / BLOCK_SIZE) default).state ≠ State.FULL) :
    (p.set_block now off dat).blocks =
      p.blocks.set (off / BLOCK_SIZE)
        { p.blocks.getD (off / BLOCK_SIZE) default with
            data := padTrunc dat (p.blocks.getD (off / BLOCK_SIZE) default).block_size,
            state := State.FULL, last_seen := now } ∧
    (padTrunc dat (p.blocks.getD (off / BLOCK_SIZE) default).block_size).length =
      (p.blocks.getD (off / BLOCK_SIZE) default).block_size := by
  unfold Piece.set_block
  rw [if_neg hne, hif]
  simp only [Bool.false_eq_true, if_false, hlt, if_true]
  unfold Block.set_block_data
  rw [if_neg hnf]
  exact ⟨rfl, padTrunc_length _ _⟩

/-- Witness for the amended C5 at a concrete one-block piece receiving
over-long data. -/
theorem C5_set_block_normalizes_witness :
    (let p : Piece := Piece.init 0 4 (List.replicate 20 1) 0
     (p.set_block 9 0 [170, 1, 2, 3, 4]).blocks =
       p.blocks.set 0
         { p.blocks.getD 0 default with
             data := padTrunc [170, 1, 2, 3, 4] (p.blocks.getD 0 default).block_size,
             state := State.FULL, last_seen := 9 } ∧
     (padTrunc [170, 1, 2, 3, 4] (p.blocks.getD 0 default).block_size).length =
       (p.blocks.getD 0 default).block_size) :=
  C5_set_block_normalizes 9 0 [170, 1, 2, 3, 4] _ (by decide) rfl
    (by decide) (by decide)

/-- Equality of parse results is decidable (used by the concrete
counterexamples). -/
instance {ε α : Type} [DecidableEq ε] [DecidableEq α] : DecidableEq (Except ε α) :=
  fun x y =>
    match x, y with
    | .ok a, .ok b =>
        if h : a = b then .isTrue (by rw [h])
        else .isFalse (by intro hh; cases hh; exact h rfl)
    | .ok _, .error _ => .isFalse (by intro hh; cases hh)
    | .error _, .ok _ => .isFalse (by intro hh; cases hh)
    | .error e, .error f =>
        if h : e = f then .isTrue (by rw [h])
        else .isFalse (by intro hh; cases hh; exact h rfl)

/-! ## Big-endian byte helpers (struct.pack / struct.unpack) -/

/-- `struct.pack('>H', n)` for `n < 2^16`. -/
def beBytes16 (n : Nat) : List Nat := [n / 2 ^ 8 % 256, n % 256]

/-- `struct.pack('>I', n)` for `n < 2^32` (Python raises on overflow; the
theorems carry the corresponding range hypotheses). -/
def beBytes32 (n : Nat) : List Nat :=
  [n / 2 ^ 24 % 256, n / 2 ^ 16 % 256, n / 2 ^ 8 % 256, n % 256]

/-- `struct.pack('>Q', n)` for `n < 2^64`. -/
def beBytes64 (n : Nat) : List Nat :=
  [n / 2 ^ 56 % 256, n / 2 ^ 48 % 256, n / 2 ^ 40 % 256, n / 2 ^ 32 % 256,
   n / 2 ^ 24 % 256, n / 2 ^ 16 % 256, n / 2 ^ 8 % 256, n % 256]

/-- `struct.unpack('>H', ...)`. -/
def be16ToNat (a b : Nat) : Nat := a * 2 ^ 8 + b

/-- `struct.unpack('>I', ...)`. -/
def be32ToNat (a b c d : Nat) : Nat := ((a * 256 + b) * 256 + c) * 256 + d

/-- `struct.unpack('>Q', ...)`. -/
def be64ToNat (a b c d e f g h : Nat) : Nat :=
  ((((((a * 256 + b) * 256 + c) * 256 + d) * 256 + e) * 256 + f) * 256 + g) * 256 + h

theorem be32_round (n : Nat) (h : n < 2 ^ 32) :
    be32ToNat (n / 2 ^ 24 % 256) (n / 2 ^ 16 % 256) (n / 2 ^ 8 % 256) (n % 256) = n := by
  unfold be32ToNat
  omega

theorem be16_round (n : Nat) (h : n < 2 ^ 16) :
    be16ToNat (n / 2 ^ 8 % 256) (n % 256) = n := by
  unfold be16ToNat
  omega

/-! ## Wire messages (src/message.py) -/

/-- The 19 bytes of `b"BitTorrent protocol"`. -/
def HANDSHAKE_PSTR_V1 : List Nat :=
  [66, 105, 116, 84, 111, 114, 114, 101, 110, 116, 32,
   112, 114, 111, 116, 111, 99, 111, 108]

/-- `class Handshake`: 20-byte info-hash and 20-byte peer-id (lengths
validated by the constructor; carried as hypotheses). -/
structure HandshakeMsg where
  info_hash : List Nat
  peer_id : List Nat
deriving DecidableEq, Repr

/-- `Handshake.to_bytes`: pstrlen, pstr, 8 reserved zero bytes, info-hash,
peer-id. -/
def HandshakeMsg.to_bytes (m : HandshakeMsg) : List Nat :=
  19 :: (HANDSHAKE_PSTR_V1 ++ (List.replicate 8 0 ++ (m.info_hash ++ m.peer_id)))

/-- `Handshake.from_bytes`: checks non-emptiness, pstrlen = 19, a total
length of at least 68, and the protocol string; it extracts the info-hash
and peer-id but compares the info-hash against nothing. -/
def HandshakeMsg.from_bytes (payload : List Nat) : Except Unit HandshakeMsg :=
  match payload with
  | [] => .error ()
  | pstrlen :: rest =>
    if pstrlen ≠ 19 then .error ()
    else if payload.length < 68 then .error ()
    else if rest.take 19 ≠ HANDSHAKE_PSTR_V1 then .error ()
    else .ok ⟨(rest.drop 27).take 20, (rest.drop 47).take 20⟩

/-- `class KeepAlive` (no fields). -/
structure KeepAliveMsg where
deriving DecidableEq, Repr

def KeepAliveMsg.to_bytes (_ : KeepAliveMsg) : List Nat := beBytes32 0

def KeepAliveMsg.from_bytes (payload : List Nat) : Except Unit KeepAliveMsg :=
  match payload with
  | l0 :: l1 :: l2 :: l3 :: _ =>
    if be32ToNat l0 l1 l2 l3 ≠ 0 then .error () else .ok ⟨⟩
  | _ => .error ()

/-- `class Choke` (message id 0, no payload). -/
structure ChokeMsg where
deriving DecidableEq, Repr

def ChokeMsg.to_bytes (_ : ChokeMsg) : List Nat := beBytes32 1 ++ [0]

def ChokeMsg.from_bytes (payload : List Nat) : Except Unit ChokeMsg :=
  match payload with
  | l0 :: l1 :: l2 :: l3 :: mid :: _ =>
    if be32ToNat l0 l1 l2 l3 ≠ 1 then .error ()
    else if mid ≠ 0 then .error ()
    else .ok ⟨⟩
  | _ => .error ()

/-- `class UnChoke` (message id 1, no payload). -/
structure UnChokeMsg where
deriving DecidableEq, Repr

def UnChokeMsg.to_bytes (_ : UnChokeMsg) : List Nat := beBytes32 1 ++ [1]

def UnChokeMsg.from_bytes (payload : List Nat) : Except Unit UnChokeMsg :=
  match payload with
  | l0 :: l1 :: l2 :: l3 :: mid :: _ =>
    if be32ToNat l0 l1 l2 l3 ≠ 1 then .error ()
    else if mid ≠ 1 then .error ()
    else .ok ⟨⟩
  | _ => .error ()

/-- `class Interested` (message id 2, no payload). -/
structure InterestedMsg where
deriving DecidableEq, Repr

def InterestedMsg.to_bytes (_ : InterestedMsg) : List Nat := beBytes32 1 ++ [2]

def InterestedMsg.from_bytes (payload : List Nat) : Except Unit InterestedMsg :=
  match payload with
  | l0 :: l1 :: l2 :: l3 :: mid :: _ =>
    if be32ToNat l0 l1 l2 l3 ≠ 1 then .error ()
    else if mid ≠ 2 then .error ()
    else .ok ⟨⟩
  | _ => .error ()

/-- `class NotInterested` (message id 3, no payload). -/
structure NotInterestedMsg where
deriving DecidableEq, Repr

def NotInterestedMsg.to_bytes (_ : NotInterestedMsg) : List Nat := beBytes32 1 ++ [3]

def NotInterestedMsg.from_bytes (payload : List Nat) : Except Unit NotInterestedMsg :=
  match payload with
  | l0 :: l1 :: l2 :: l3 :: mid :: _ =>
    if be32ToNat l0 l1 l2 l3 ≠ 1 then .error ()
    else if mid ≠ 3 then .error ()
    else .ok ⟨⟩
  | _ => .error ()

/-- `class Have` (message id 4): piece index (unsigned in the model, so the
source's `piece_index < 0` checks are vacuous). -/
structure HaveMsg where
  piece_index : Nat
deriving DecidableEq, Repr

def HaveMsg.to_bytes (m : HaveMsg) : List Nat :=
  beBytes32 5 ++ (4 :: beBytes32 m.piece_index)

def HaveMsg.from_bytes (payload : List Nat) : Except Unit HaveMsg :=
  match payload with
  | l0 :: l1 :: l2 :: l3 :: mid :: a0 :: a1 :: a2 :: a3 :: _ =>
    if be32ToNat l0 l1 l2 l3 ≠ 5 then .error ()
    else if mid ≠ 4 then .error ()
    else .ok ⟨be32ToNat a0 a1 a2 a3⟩
  | _ => .error ()

/-- `class Request` (message id 6): piece index, block offset, block length
(constructor requires `0 < block_length ≤ 16384`). -/
structure RequestMsg where
  piece_index : Nat
  block_offset : Nat
  block_length : Nat
deriving DecidableEq, Repr

def RequestMsg.to_bytes (m : RequestMsg) : List Nat :=
  beBytes32 13 ++ (6 :: (beBytes32 m.piece_index ++
    (beBytes32 m.block_offset ++ beBytes32 m.block_length)))

def RequestMsg.from_bytes (payload : List Nat) : Except Unit RequestMsg :=
  match payload with
  | l0 :: l1 :: l2 :: l3 :: mid :: a0 :: a1 :: a2 :: a3 ::
      b0 :: b1 :: b2 :: b3 :: c0 :: c1 :: c2 :: c3 :: _ =>
    if be32ToNat l0 l1 l2 l3 ≠ 13 then .error ()
    else if mid ≠ 6 then .error ()
    else
      let bl := be32ToNat c0 c1 c2 c3
      if bl = 0 ∨ bl > 16384 then .error ()
      else .ok ⟨be32ToNat a0 a1 a2 a3, be32ToNat b0 b1 b2 b3, bl⟩
  | _ => .error ()

/-- `class Piece` message (id 7): piece index, block offset, non-empty block
bytes. -/
structure PieceMsg where
  piece_index : Nat
  block_offset : Nat
  block : List Nat
deriving DecidableEq, Repr

def PieceMsg.to_bytes (m : PieceMsg) : List Nat :=
  beBytes32 (9 + m.block.length) ++ (7 :: (beBytes32 m.piece_index ++
    (beBytes32 m.block_offset ++ m.block)))

def PieceMsg.from_bytes (payload : List Nat) : Except Unit PieceMsg :=
  match payload with
  | l0 :: l1 :: l2 :: l3 :: mid :: a0 :: a1 :: a2 :: a3 ::
      b0 :: b1 :: b2 :: b3 :: rest =>
    let plen := be32ToNat l0 l1 l2 l3
    if mid ≠ 7 then .error ()
    else if plen < 9 then .error ()
    else
      let bl := plen - 9
      if rest.length < bl then .error ()
      else .ok ⟨be32ToNat a0 a1 a2 a3, be32ToNat b0 b1 b2 b3, rest.take bl⟩
  | _ => .error ()

/-- `class Cancel` (message id 8): same shape as Request; the constructor
only requires `0 < block_length`. -/
structure CancelMsg where
  piece_index : Nat
  block_offset : Nat
  block_length : Nat
deriving DecidableEq, Repr

def CancelMsg.to_bytes (m : CancelMsg) : List Nat :=
  beBytes32 13 ++ (8 :: (beBytes32 m.piece_index ++
    (beBytes32 m.block_offset ++ beBytes32 m.block_length)))

def CancelMsg.from_bytes (payload : List Nat) : Except Unit CancelMsg :=
  match payload with
  | l0 :: l1 :: l2 :: l3 :: mid :: a0 :: a1 :: a2 :: a3 ::
      b0 :: b1 :: b2 :: b3 :: c0 :: c1 :: c2 :: c3 :: _ =>
    if be32ToNat l0 l1 l2 l3 ≠ 13 then .error ()
    else if mid ≠ 8 then .error ()
    else
      let bl := be32ToNat c0 c1 c2 c3
      if bl = 0 then .error ()
      else .ok ⟨be32ToNat a0 a1 a2 a3, be32ToNat b0 b1 b2 b3, bl⟩
  | _ => .error ()

/-- `class Port` (message id 9): the listen port is range-checked to
0..65535 but packed as a full 4-byte integer. -/
structure PortMsg where
  listen_port : Nat
deriving DecidableEq, Repr

def PortMsg.to_bytes (m : PortMsg) : List Nat :=
  beBytes32 5 ++ (9 :: beBytes32 m.listen_port)

def PortMsg.from_bytes (payload : List Nat) : Except Unit PortMsg :=
  match payload with
  | l0 :: l1 :: l2 :: l3 :: mid :: a0 :: a1 :: a2 :: a3 :: _ =>
    if be32ToNat l0 l1 l2 l3 ≠ 5 then .error ()
    else if mid ≠ 9 then .error ()
    else
      let port := be32ToNat a0 a1 a2 a3
      if port > 65535 then .error ()
      else .ok ⟨port⟩
  | _ => .error ()

/-! ## Bitfield packing (bitstring.BitArray) -/

/-- One byte from 8 bits, most significant bit first. -/
def bitsToByte (bits : List Bool) : Nat :=
  bits.foldl (fun acc b => acc * 2 + (if b then 1 else 0)) 0

/-- The 8 bits of one byte, most significant bit first. -/
def byteToBits (n : Nat) : List Bool :=
  [n.testBit 7, n.testBit 6, n.testBit 5, n.testBit 4,
   n.testBit 3, n.testBit 2, n.testBit 1, n.testBit 0]

/-- `BitArray.tobytes()`: pack bits into bytes, zero-padding the final
partial byte. -/
def bitsToBytes : List Bool → List Nat
  | [] => []
  | b0 :: b1 :: b2 :: b3 :: b4 :: b5 :: b6 :: b7 :: rest =>
      bitsToByte [b0, b1, b2, b3, b4, b5, b6, b7] :: bitsToBytes rest
  | l => [bitsToByte (l ++ List.replicate (8 - l.length) false)]

/-- `BitArray(bytes=raw)`: every byte expands to its 8 bits, MSB first. -/
def bytesToBits (l : List Nat) : List Bool :=
  (l.map byteToBits).flatten

/-- `class BitField` (message id 5): the bitfield as a list of bits. -/
structure BitFieldMsg where
  bitfield : List Bool
deriving DecidableEq, Repr

def BitFieldMsg.to_bytes (m : BitFieldMsg) : List Nat :=
  let bytes := bitsToBytes m.bitfield
  beBytes32 (1 + bytes.length) ++ (5 :: bytes)

def BitFieldMsg.from_bytes (payload : List Nat) : Except Unit BitFieldMsg :=
  match payload with
  | l0 :: l1 :: l2 :: l3 :: mid :: rest =>
    let plen := be32ToNat l0 l1 l2 l3
    if mid ≠ 5 then .error ()
    else if plen = 0 then .error ()
    else
      let bl := plen - 1
      if rest.length < bl then .error ()
      else .ok ⟨bytesToBits (rest.take bl)⟩
  | _ => .error ()

/-! ## Peer session (src/peer.py) -/

/-- The four choke/interest flags (`self.state` dict in src/peer.py). -/
structure PeerFlags where
  am_choking : Bool
  am_interested : Bool
  peer_choking : Bool
  peer_interested : Bool
deriving DecidableEq, Repr

/-- The parts of `class Peer` that the verified handlers touch.  Sockets and
raw I/O are outside the model; `send_to_peer` is assumed to succeed. -/
structure Peer where
  bit_field : List Bool
  number_of_pieces : Nat
  healthy : Bool
  has_handshaked : Bool
  read_buffer : List Nat
  state : PeerFlags
deriving DecidableEq, Repr

namespace Peer

/-- `Peer.is_choking`. -/
def is_choking (p : Peer) : Bool := p.state.peer_choking

/-- `Peer.handle_bitfield` from src/peer.py: a bitfield whose length equals
the number of pieces replaces the stored bitfield; any other length is
merged on the common prefix ("Try to use what we can") — the session is
never closed.  Afterwards, an Interested message is sent (and
`am_interested` set) if the remote is choking us and we were not yet
interested. -/
def handle_bitfield (msg : BitFieldMsg) (p : Peer) : Peer :=
  let p1 :=
    if msg.bitfield.length = p.number_of_pieces then
      { p with bit_field := msg.bitfield }
    else
      let min_size := min msg.bitfield.length p.number_of_pieces
      { p with bit_field := msg.bitfield.take min_size ++ p.bit_field.drop min_size }
  if p1.is_choking && !p1.state.am_interested then
    { p1 with state := { p1.state with am_interested := true } }
  else p1

/-- `Peer._handle_handshake` from src/peer.py: parse the buffered handshake;
on success mark the session handshaked and consume 68 bytes; on any parse
failure mark the session unhealthy.  The parsed info-hash is never compared
with the local torrent's info-hash. -/
def handle_handshake (p : Peer) : Bool × Peer :=
  match HandshakeMsg.from_bytes p.read_buffer with
  | .ok _ =>
      (true, { p with has_handshaked := true,
                      read_buffer := p.read_buffer.drop 68 })
  | .error _ => (false, { p with healthy := false })

end Peer

/-! ## UDP tracker (src/tracker.py, src/message.py) -/

/-- A parsed UDP connect response (`UdpTrackerConnection.from_bytes`):
action, transaction id, connection id. -/
structure UdpConnResp where
  action : Nat
  transaction_id : Nat
  connection_id : Nat
deriving DecidableEq, Repr

/-- `UdpTrackerConnection.from_bytes`: requires 16 bytes, then reads
action (4), transaction id (4), connection id (8), big-endian. -/
def UdpTrackerConnection.from_bytes (payload : List Nat) : Except Unit UdpConnResp :=
  match payload with
  | a0 :: a1 :: a2 :: a3 :: t0 :: t1 :: t2 :: t3 ::
      c0 :: c1 :: c2 :: c3 :: c4 :: c5 :: c6 :: c7 :: _ =>
    .ok ⟨be32ToNat a0 a1 a2 a3, be32ToNat t0 t1 t2 t3,
         be64ToNat c0 c1 c2 c3 c4 c5 c6 c7⟩
  | _ => .error ()

/-- The connect-phase decision of `Tracker.udp_scraper` (src/tracker.py
lines 246-258): responses shorter than 16 bytes are rejected, any other
response is parsed and its connection id used for the announce.  The
transaction id of the sent connect request (`sent_tid`) is available to the
code but never compared with the response's transaction id. -/
def udpConnectPhase (_sent_tid : Nat) (response : List Nat) : Option Nat :=
  if response.length < 16 then none
  else
    match UdpTrackerConnection.from_bytes response with
    | .ok o => some o.connection_id
    | .error _ => none

/-- One 6-byte peer record after another (`UdpTrackerAnnounceOutput`):
4 IP bytes and a big-endian port; `socket.inet_ntoa` of 4 bytes never
fails and yields a non-empty (truthy) string, so only the port range is
checked. -/
def parsePeers : List Nat → List (List Nat × Nat)
  | b0 :: b1 :: b2 :: b3 :: p0 :: p1 :: rest =>
      let port := be16ToNat p0 p1
      if 1 ≤ port ∧ port ≤ 65535 then
        ([b0, b1, b2, b3], port) :: parsePeers rest
      else parsePeers rest
  | _ => []

/-- A parsed UDP announce response. -/
structure UdpAnnounceResp where
  action : Nat
  transaction_id : Nat
  interval : Nat
  leechers : Nat
  seeders : Nat
  peers : List (List Nat × Nat)
deriving DecidableEq, Repr

/-- `UdpTrackerAnnounceOutput.from_bytes`: requires 20 header bytes, then a
flat array of 6-byte peer records (a trailing fragment shorter than 6 bytes
is ignored). -/
def UdpTrackerAnnounceOutput.from_bytes (payload : List Nat) :
    Except Unit UdpAnnounceResp :=
  match payload with
  | a0 :: a1 :: a2 :: a3 :: t0 :: t1 :: t2 :: t3 ::
      i0 :: i1 :: i2 :: i3 :: l0 :: l1 :: l2 :: l3 ::
      s0 :: s1 :: s2 :: s3 :: rest =>
    .ok ⟨be32ToNat a0 a1 a2 a3, be32ToNat t0 t1 t2 t3,
         be32ToNat i0 i1 i2 i3, be32ToNat l0 l1 l2 l3,
         be32ToNat s0 s1 s2 s3, parsePeers rest⟩
  | _ => .error ()

/-- The announce-phase decision of `Tracker.udp_scraper` (src/tracker.py
lines 277-298): a parse failure discards the response, otherwise every
parsed peer record is added to the candidate set.  The transaction id of
the sent announce request is never compared with the response's. -/
def udpAnnouncePhase (_sent_tid : Nat) (response : List Nat) :
    Option (List (List Nat × Nat)) :=
  match UdpTrackerAnnounceOutput.from_bytes response with
  | .ok o => some o.peers
  | .error _ => none

/-! ## Claims C6, C7, C8 -/

/-- C6: the claim is half false.  A 68-byte handshake whose protocol string
is correct but whose info-hash field (20 bytes of 0x41) differs from the
local torrent's info-hash (20 bytes of 0x43) is ACCEPTED: `from_bytes`
parses it, `_handle_handshake` marks the session handshaked and leaves it
healthy.  The code never compares the received info-hash with the local
one. -/
theorem C6_mismatched_info_hash_accepted :
    (let buf := HandshakeMsg.to_bytes ⟨List.replicate 20 65, List.replicate 20 66⟩
     let p : Peer := ⟨[], 0, true, false, buf, ⟨true, false, true, false⟩⟩
     HandshakeMsg.from_bytes buf = .ok ⟨List.replicate 20 65, List.replicate 20 66⟩ ∧
     List.replicate 20 65 ≠ List.replicate 20 67 ∧
     (p.handle_handshake).1 = true ∧
     (p.handle_handshake).2.healthy = true ∧
     (p.handle_handshake).2.has_handshaked = true) := by
  decide

/-- C7: neither tracker phase verifies the transaction id.  A connect
response carrying transaction id 2 after a request sent with transaction
id 1 still yields its connection id (99), and an announce response carrying
transaction id 4 after a request sent with transaction id 3 still yields
its peer list. -/
theorem C7_transaction_id_not_checked :
    (let conn_resp := beBytes32 0 ++ beBytes32 2 ++ beBytes64 99
     let ann_resp := beBytes32 1 ++ beBytes32 4 ++ beBytes32 1800 ++
       beBytes32 0 ++ beBytes32 1 ++ ([10, 0, 0, 1] ++ beBytes16 6881)
     udpConnectPhase 1 conn_resp = some 99 ∧
     UdpTrackerConnection.from_bytes conn_resp = .ok ⟨0, 2, 99⟩ ∧
     (2 : Nat) ≠ 1 ∧
     udpAnnouncePhase 3 ann_resp = some [([10, 0, 0, 1], 6881)] ∧
     UdpTrackerAnnounceOutput.from_bytes ann_resp =
       .ok ⟨1, 4, 1800, 0, 1, [([10, 0, 0, 1], 6881)]⟩ ∧
     (4 : Nat) ≠ 3) := by
  decide

/-- C8, counterexample: a Bitfield message of 8 bits received by a session
tracking 4 pieces is an invalid bitfield length for N = 4, yet the session
is not closed: `handle_bitfield` keeps `healthy = true` and merges the
first 4 bits into the session's bitfield. -/
theorem C8_counterexample :
    (let p : Peer := ⟨[false, false, false, false], 4, true, true, [],
        ⟨true, false, true, true⟩⟩
     let msg := BitFieldMsg.from_bytes (BitFieldMsg.to_bytes ⟨[true, false, true, false]⟩)
     ∃ m, msg = .ok m ∧ m.bitfield.length = 8 ∧ m.bitfield.length ≠ 4 ∧
       (p.handle_bitfield m).healthy = true ∧
       (p.handle_bitfield m).bit_field = [true, false, true, false]) := by
  exact ⟨⟨[true, false, true, false, false, false, false, false]⟩,
    by decide, by decide, by decide, by decide, by decide⟩

/-- C8 (amended): receiving a Bitfield message never closes the session and
is never fatal: `handle_bitfield` leaves `healthy` unchanged; a bitfield of
exactly N bits replaces the stored bitfield, any other length is merged on
the first `min(len, N)` bits. -/
theorem C8_bitfield_never_closes (msg : BitFieldMsg) (p : Peer) :
    (p.handle_bitfield msg).healthy = p.healthy ∧
    (msg.bitfield.length = p.number_of_pieces →
      (p.handle_bitfield msg).bit_field = msg.bitfield) ∧
    (msg.bitfield.length ≠ p.number_of_pieces →
      (p.handle_bitfield msg).bit_field =
        msg.bitfield.take (min msg.bitfield.length p.number_of_pieces) ++
        p.bit_field.drop (min msg.bitfield.length p.number_of_pieces)) := by
  unfold Peer.handle_bitfield
  dsimp only
  split
  · rename_i hlen
    refine ⟨?_, fun _ => ?_, fun hne => absurd hlen hne⟩ <;> split <;> rfl
  · rename_i hlen
    refine ⟨?_, fun heq => absurd heq hlen, fun _ => ?_⟩ <;> split <;> rfl

/-- Witness for the amended C8 at a concrete mismatched bitfield. -/
theorem C8_bitfield_never_closes_witness :
    (let p : Peer := ⟨[false, false], 2, true, true, [], ⟨true, false, true, false⟩⟩
     let msg : BitFieldMsg := ⟨[true, false, true, false, false, false, false, false]⟩
     (p.handle_bitfield msg).healthy = p.healthy ∧
     (msg.bitfield.length = p.number_of_pieces →
       (p.handle_bitfield msg).bit_field = msg.bitfield) ∧
     (msg.bitfield.length ≠ p.number_of_pieces →
       (p.handle_bitfield msg).bit_field =
         msg.bitfield.take (min msg.bitfield.length p.number_of_pieces) ++
         p.bit_field.drop (min msg.bitfield.length p.number_of_pieces))) :=
  C8_bitfield_never_closes _ _

/-! ## Round-trip lemmas for the wire messages (claim C10) -/

theorem bytesToBits_cons (x : Nat) (xs : List Nat) :
    bytesToBits (x :: xs) = byteToBits x ++ bytesToBits xs := rfl

theorem byteToBits_byte (b0 b1 b2 b3 b4 b5 b6 b7 : Bool) :
    byteToBits (bitsToByte [b0, b1, b2, b3, b4, b5, b6, b7]) =
      [b0, b1, b2, b3, b4, b5, b6, b7] := by
  revert b0 b1 b2 b3 b4 b5 b6 b7
  decide

/-- Unpacking the packed bytes of a bit array recovers the bits, zero-padded
to a byte boundary. -/
theorem bytesToBits_bitsToBytes :
    ∀ bits : List Bool,
      bytesToBits (bitsToBytes bits) =
        bits ++ List.replicate ((8 - bits.length % 8) % 8) false
  | [] => by decide
  | [a] => by revert a; decide
  | [a, b] => by revert a b; decide
  | [a, b, c] => by revert a b c; decide
  | [a, b, c, d] => by revert a b c d; decide
  | [a, b, c, d, e] => by revert a b c d e; decide
  | [a, b, c, d, e, f] => by revert a b c d e f; decide
  | [a, b, c, d, e, f, g] => by revert a b c d e f g; decide
  | b0 :: b1 :: b2 :: b3 :: b4 :: b5 :: b6 :: b7 :: rest => by
      have ihr := bytesToBits_bitsToBytes rest
      show bytesToBits (bitsToByte [b0, b1, b2, b3, b4, b5, b6, b7] ::
        bitsToBytes rest) = _
      rw [bytesToBits_cons, byteToBits_byte, ihr]
      simp only [List.length_cons, List.cons_append, List.nil_append,
        List.append_assoc]
      have hmod : (rest.length + 1 + 1 + 1 + 1 + 1 + 1 + 1 + 1) % 8 =
          rest.length % 8 := by omega
      rw [hmod]

/-- Handshake round trip (valid 20-byte fields). -/
theorem handshake_roundtrip (ihash pid : List Nat)
    (h1 : ihash.length = 20) (h2 : pid.length = 20) :
    HandshakeMsg.from_bytes (HandshakeMsg.to_bytes ⟨ihash, pid⟩) =
      .ok ⟨ihash, pid⟩ := by
  have hP : HANDSHAKE_PSTR_V1.length = 19 := rfl
  have hZ : (List.replicate 8 (0 : Nat)).length = 8 := rfl
  have hd19 : (HANDSHAKE_PSTR_V1 ++ (List.replicate 8 0 ++ (ihash ++ pid))).drop 19 =
      List.replicate 8 0 ++ (ihash ++ pid) := List.drop_left' hP
  have hd27 : (HANDSHAKE_PSTR_V1 ++ (List.replicate 8 0 ++ (ihash ++ pid))).drop 27 =
      ihash ++ pid := by
    have h27 : (27 : Nat) = 19 + 8 := rfl
    rw [h27, ← List.drop_drop, hd19, List.drop_left' hZ]
  have hd47 : (HANDSHAKE_PSTR_V1 ++ (List.replicate 8 0 ++ (ihash ++ pid))).drop 47 =
      pid := by
    have h47 : (47 : Nat) = 27 + 20 := rfl
    rw [h47, ← List.drop_drop, hd27, List.drop_left' h1]
  have hlen : (19 :: (HANDSHAKE_PSTR_V1 ++ (List.replicate 8 0 ++ (ihash ++ pid)))).length
      = 68 := by
    simp only [List.length_cons, List.length_append, List.length_replicate, hP, h1, h2]
  unfold HandshakeMsg.to_bytes HandshakeMsg.from_bytes
  dsimp only
  rw [if_neg (by decide)]
  rw [if_neg (by rw [hlen]; decide)]
  rw [if_neg (by rw [List.take_left' hP]; exact fun hh => hh rfl)]
  rw [hd27, hd47, List.take_left' h1]
  conv_lhs => rw [← h2, List.take_length]

/-- Have round trip. -/
theorem have_roundtrip (n : Nat) (h : n < 2 ^ 32) :
    HaveMsg.from_bytes (HaveMsg.to_bytes ⟨n⟩) = .ok ⟨n⟩ := by
  show HaveMsg.from_bytes (0 :: 0 :: 0 :: 5 :: 4 :: (n / 2 ^ 24 % 256) ::
    (n / 2 ^ 16 % 256) :: (n / 2 ^ 8 % 256) :: (n % 256) :: []) = _
  simp only [HaveMsg.from_bytes]
  rw [if_neg (by decide), if_neg (by decide), be32_round n h]

/-- Request round trip (constructor-valid block length). -/
theorem request_roundtrip (pi off bl : Nat) (h1 : pi < 2 ^ 32)
    (h2 : off < 2 ^ 32) (h3 : 0 < bl) (h4 : bl ≤ 16384) :
    RequestMsg.from_bytes (RequestMsg.to_bytes ⟨pi, off, bl⟩) =
      .ok ⟨pi, off, bl⟩ := by
  show RequestMsg.from_bytes (0 :: 0 :: 0 :: 13 :: 6 ::
    (pi / 2 ^ 24 % 256) :: (pi / 2 ^ 16 % 256) :: (pi / 2 ^ 8 % 256) :: (pi % 256) ::
    (off / 2 ^ 24 % 256) :: (off / 2 ^ 16 % 256) :: (off / 2 ^ 8 % 256) :: (off % 256) ::
    (bl / 2 ^ 24 % 256) :: (bl / 2 ^ 16 % 256) :: (bl / 2 ^ 8 % 256) :: (bl % 256) :: []) = _
  simp only [RequestMsg.from_bytes]
  rw [if_neg (by decide), if_neg (by decide)]
  rw [be32_round bl (by omega)]
  rw [if_neg (by omega)]
  rw [be32_round pi h1, be32_round off h2]

/-- Cancel round trip (constructor-valid block length). -/
theorem cancel_roundtrip (pi off bl : Nat) (h1 : pi < 2 ^ 32)
    (h2 : off < 2 ^ 32) (h3 : 0 < bl) (h4 : bl < 2 ^ 32) :
    CancelMsg.from_bytes (CancelMsg.to_bytes ⟨pi, off, bl⟩) =
      .ok ⟨pi, off, bl⟩ := by
  show CancelMsg.from_bytes (0 :: 0 :: 0 :: 13 :: 8 ::
    (pi / 2 ^ 24 % 256) :: (pi / 2 ^ 16 % 256) :: (pi / 2 ^ 8 % 256) :: (pi % 256) ::
    (off / 2 ^ 24 % 256) :: (off / 2 ^ 16 % 256) :: (off / 2 ^ 8 % 256) :: (off % 256) ::
    (bl / 2 ^ 24 % 256) :: (bl / 2 ^ 16 % 256) :: (bl / 2 ^ 8 % 256) :: (bl % 256) :: []) = _
  simp only [CancelMsg.from_bytes]
  rw [if_neg (by decide), if_neg (by decide)]
  rw [be32_round bl h4]
  rw [if_neg (by omega)]
  rw [be32_round pi h1, be32_round off h2]

/-- Port round trip (constructor-valid port). -/
theorem port_roundtrip (port : Nat) (h : port ≤ 65535) :
    PortMsg.from_bytes (PortMsg.to_bytes ⟨port⟩) = .ok ⟨port⟩ := by
  show PortMsg.from_bytes (0 :: 0 :: 0 :: 5 :: 9 ::
    (port / 2 ^ 24 % 256) :: (port / 2 ^ 16 % 256) ::
    (port / 2 ^ 8 % 256) :: (port % 256) :: []) = _
  simp only [PortMsg.from_bytes]
  rw [if_neg (by decide), if_neg (by decide)]
  rw [be32_round port (by omega)]
  rw [if_neg (by omega)]

/-- Piece-message round trip. -/
theorem piece_roundtrip (pi off : Nat) (block : List Nat)
    (h1 : pi < 2 ^ 32) (h2 : off < 2 ^ 32) (h3 : 9 + block.length < 2 ^ 32) :
    PieceMsg.from_bytes (PieceMsg.to_bytes ⟨pi, off, block⟩) =
      .ok ⟨pi, off, block⟩ := by
  show PieceMsg.from_bytes (((9 + block.length) / 2 ^ 24 % 256) ::
    ((9 + block.length) / 2 ^ 16 % 256) :: ((9 + block.length) / 2 ^ 8 % 256) ::
    ((9 + block.length) % 256) :: 7 ::
    (pi / 2 ^ 24 % 256) :: (pi / 2 ^ 16 % 256) :: (pi / 2 ^ 8 % 256) :: (pi % 256) ::
    (off / 2 ^ 24 % 256) :: (off / 2 ^ 16 % 256) :: (off / 2 ^ 8 % 256) :: (off % 256) ::
    block) = _
  simp only [PieceMsg.from_bytes]
  rw [be32_round (9 + block.length) h3]
  rw [if_neg (by decide), if_neg (by omega), if_neg (by omega)]
  rw [be32_round pi h1, be32_round off h2]
  have : 9 + block.length - 9 = block.length := by omega
  rw [this, List.take_length]

/-- BitField round trip: the parsed bitfield is the original padded with
zero bits to a byte boundary. -/
theorem bitfield_roundtrip (bits : List Bool)
    (h : 1 + (bitsToBytes bits).length < 2 ^ 32) :
    BitFieldMsg.from_bytes (BitFieldMsg.to_bytes ⟨bits⟩) =
      .ok ⟨bits ++ List.replicate ((8 - bits.length % 8) % 8) false⟩ := by
  show BitFieldMsg.from_bytes (((1 + (bitsToBytes bits).length) / 2 ^ 24 % 256) ::
    ((1 + (bitsToBytes bits).length) / 2 ^ 16 % 256) ::
    ((1 + (bitsToBytes bits).length) / 2 ^ 8 % 256) ::
    ((1 + (bitsToBytes bits).length) % 256) :: 5 :: bitsToBytes bits) = _
  simp only [BitFieldMsg.from_bytes]
  rw [be32_round (1 + (bitsToBytes bits).length) h]
  rw [if_neg (by decide), if_neg (by omega)]
  have : 1 + (bitsToBytes bits).length - 1 = (bitsToBytes bits).length := by omega
  rw [this, if_neg (by omega), List.take_length, bytesToBits_bitsToBytes]

/-- C10, counterexample: the round trip fails for BitField whenever the
bit length is not a multiple of 8.  A 4-bit bitfield (as a 4-piece torrent
would produce) serializes into one padded byte, and parsing yields 8 bits,
not a message equal to the original. -/
theorem C10_counterexample :
    BitFieldMsg.from_bytes (BitFieldMsg.to_bytes ⟨[true, false, true, false]⟩) ≠
      .ok ⟨[true, false, true, false]⟩ ∧
    BitFieldMsg.from_bytes (BitFieldMsg.to_bytes ⟨[true, false, true, false]⟩) =
      .ok ⟨[true, false, true, false, false, false, false, false]⟩ := by
  decide

/-- C10 (amended): for every well-formed message of the classes Handshake,
KeepAlive, Choke, UnChoke, Interested, NotInterested, Have, Request, Piece,
Cancel and Port (fields within the ranges the constructors and struct.pack
enforce), `from_bytes (to_bytes m) = m` field by field.  For BitField,
parsing the serialization yields the original bitfield zero-padded to a
byte boundary, which equals the original exactly when the bit length is a
multiple of 8. -/
theorem C10_roundtrip (ihash pid : List Nat) (n pi off bl pi2 off2 bl2 port : Nat)
    (block : List Nat) (bits : List Bool)
    (hih : ihash.length = 20) (hpid : pid.length = 20)
    (hn : n < 2 ^ 32)
    (hpi : pi < 2 ^ 32) (hoff : off < 2 ^ 32) (hbl0 : 0 < bl) (hbl : bl ≤ 16384)
    (hpi2 : pi2 < 2 ^ 32) (hoff2 : off2 < 2 ^ 32) (hbl20 : 0 < bl2) (hbl2 : bl2 < 2 ^ 32)
    (hport : port ≤ 65535)
    (hblk2 : 9 + block.length < 2 ^ 32)
    (hbits : 1 + (bitsToBytes bits).length < 2 ^ 32) :
    HandshakeMsg.from_bytes (HandshakeMsg.to_bytes ⟨ihash, pid⟩) = .ok ⟨ihash, pid⟩ ∧
    KeepAliveMsg.from_bytes (KeepAliveMsg.to_bytes ⟨⟩) = .ok ⟨⟩ ∧
    ChokeMsg.from_bytes (ChokeMsg.to_bytes ⟨⟩) = .ok ⟨⟩ ∧
    UnChokeMsg.from_bytes (UnChokeMsg.to_bytes ⟨⟩) = .ok ⟨⟩ ∧
    InterestedMsg.from_bytes (InterestedMsg.to_bytes ⟨⟩) = .ok ⟨⟩ ∧
    NotInterestedMsg.from_bytes (NotInterestedMsg.to_bytes ⟨⟩) = .ok ⟨⟩ ∧
    HaveMsg.from_bytes (HaveMsg.to_bytes ⟨n⟩) = .ok ⟨n⟩ ∧
    RequestMsg.from_bytes (RequestMsg.to_bytes ⟨pi, off, bl⟩) = .ok ⟨pi, off, bl⟩ ∧
    PieceMsg.from_bytes (PieceMsg.to_bytes ⟨pi, off, block⟩) = .ok ⟨pi, off, block⟩ ∧
    CancelMsg.from_bytes (CancelMsg.to_bytes ⟨pi2, off2, bl2⟩) = .ok ⟨pi2, off2, bl2⟩ ∧
    PortMsg.from_bytes (PortMsg.to_bytes ⟨port⟩) = .ok ⟨port⟩ ∧
    BitFieldMsg.from_bytes (BitFieldMsg.to_bytes ⟨bits⟩) =
      .ok ⟨bits ++ List.replicate ((8 - bits.length % 8) % 8) false⟩ :=
  ⟨handshake_roundtrip ihash pid hih hpid, by decide, by decide, by decide,
   by decide, by decide, have_roundtrip n hn,
   request_roundtrip pi off bl hpi hoff hbl0 hbl,
   piece_roundtrip pi off block hpi hoff hblk2,
   cancel_roundtrip pi2 off2 bl2 hpi2 hoff2 hbl20 hbl2,
   port_roundtrip port hport,
   bitfield_roundtrip bits hbits⟩

/-- Witness for the amended C10 at concrete messages of every class. -/
theorem C10_roundtrip_witness :
    HandshakeMsg.from_bytes (HandshakeMsg.to_bytes
      ⟨List.replicate 20 1, List.replicate 20 2⟩) =
      .ok ⟨List.replicate 20 1, List.replicate 20 2⟩ ∧
    KeepAliveMsg.from_bytes (KeepAliveMsg.to_bytes ⟨⟩) = .ok ⟨⟩ ∧
    ChokeMsg.from_bytes (ChokeMsg.to_bytes ⟨⟩) = .ok ⟨⟩ ∧
    UnChokeMsg.from_bytes (UnChokeMsg.to_bytes ⟨⟩) = .ok ⟨⟩ ∧
    InterestedMsg.from_bytes (InterestedMsg.to_bytes ⟨⟩) = .ok ⟨⟩ ∧
    NotInterestedMsg.from_bytes (NotInterestedMsg.to_bytes ⟨⟩) = .ok ⟨⟩ ∧
    HaveMsg.from_bytes (HaveMsg.to_bytes ⟨300⟩) = .ok ⟨300⟩ ∧
    RequestMsg.from_bytes (RequestMsg.to_bytes ⟨1, 16384, 16384⟩) =
      .ok ⟨1, 16384, 16384⟩ ∧
    PieceMsg.from_bytes (PieceMsg.to_bytes ⟨1, 16384, [7, 8]⟩) =
      .ok ⟨1, 16384, [7, 8]⟩ ∧
    CancelMsg.from_bytes (CancelMsg.to_bytes ⟨2, 3, 4⟩) = .ok ⟨2, 3, 4⟩ ∧
    PortMsg.from_bytes (PortMsg.to_bytes ⟨6881⟩) = .ok ⟨6881⟩ ∧
    BitFieldMsg.from_bytes (BitFieldMsg.to_bytes ⟨[true, false, true, false]⟩) =
      .ok ⟨[true, false, true, false] ++ List.replicate ((8 - 4 % 8) % 8) false⟩ :=
  C10_roundtrip (List.replicate 20 1) (List.replicate 20 2) 300 1 16384 16384
    2 3 4 6881 [7, 8] [true, false, true, false]
    (by decide) (by decide) (by decide) (by decide) (by decide) (by decide)
    (by decide) (by decide) (by decide) (by decide) (by decide) (by decide)
    (by decide) (by decide)

/-! ## Bencode values (src/torrent.py) -/

/-- A bencode value as produced by `bdecode`: integer, byte string, list,
or dictionary with byte-string keys.  Python dictionaries are modelled as
association lists in insertion order (`bencode` also accepts `str` values,
which it first encodes to bytes, so byte strings cover both). -/
inductive BValue where
  | int : Int → BValue
  | str : List Nat → BValue
  | list : List BValue → BValue
  | dict : List (List Nat × BValue) → BValue

/-- Decimal digits of `n` (as byte values), fuel-indexed so the definition
is structural and kernel-reducible; `natDigits` supplies ample fuel. -/
def natDigitsAux : Nat → Nat → List Nat
  | 0, _ => []
  | fuel + 1, n => if n < 10 then [48 + n] else natDigitsAux fuel (n / 10) ++ [48 + n % 10]

/-- The decimal representation of `n`, e.g. `f"{n}"`. -/
def natDigits (n : Nat) : List Nat := natDigitsAux (n + 1) n

/-- One digit of a base-10 accumulator parse: fail on a non-digit byte. -/
def digitStep (acc : Option Nat) (c : Nat) : Option Nat :=
  acc.bind fun a => if 48 ≤ c ∧ c ≤ 57 then some (a * 10 + (c - 48)) else none

/-- Parse a non-empty all-digit byte string as a natural number (the
digit-only core of Python `int()`; the whitespace/underscore liberality of
`int()` is not modelled — no verified property exercises it). -/
def digitsToNat? (l : List Nat) : Option Nat :=
  if l = [] then none else l.foldl digitStep (some 0)

/-- Python `int()` on a bytes literal: optional sign, then digits. -/
def parsePyInt (l : List Nat) : Option Int :=
  match l with
  | [] => none
  | c :: rest =>
      if c = 45 then (digitsToNat? rest).map fun n => -(n : Int)
      else if c = 43 then (digitsToNat? rest).map fun n => (n : Int)
      else (digitsToNat? (c :: rest)).map fun n => (n : Int)

/-- `f"i{data}e"` body: the decimal representation of an integer, with a
leading minus sign when negative. -/
def intToBytes (i : Int) : List Nat :=
  if i < 0 then 45 :: natDigits i.natAbs else natDigits i.toNat

/-- Python `<` on byte strings: strict lexicographic order. -/
def lexLt : List Nat → List Nat → Bool
  | [], [] => false
  | [], _ :: _ => true
  | _ :: _, [] => false
  | a :: as, b :: bs => if a < b then true else if b < a then false else lexLt as bs

/-- One step of a stable insertion sort by key (Python `sorted` on the
dictionary keys): the new pair goes before the first existing pair whose
key is not smaller. -/
def pyInsert {α : Type} (p : List Nat × α) :
    List (List Nat × α) → List (List Nat × α)
  | [] => [p]
  | q :: rest => if lexLt q.1 p.1 then q :: pyInsert p rest else p :: q :: rest

/-- Stable sort of key/value pairs by key, as `sorted(data.keys())` followed
by lookups produces for a Python dict (whose keys are unique). -/
def pySortPairs {α : Type} : List (List Nat × α) → List (List Nat × α)
  | [] => []
  | p :: rest => pyInsert p (pySortPairs rest)

/-- `f"{len(data)}:".encode() + data`: the bencoding of a byte string. -/
def encStr (s : List Nat) : List Nat := natDigits s.length ++ (58 :: s)

/-- Concatenate already-encoded dictionary pairs: encoded key, then encoded
value, in list order. -/
def bencodeDictBytes : List (List Nat × List Nat) → List Nat
  | [] => []
  | (k, ev) :: rest => encStr k ++ (ev ++ bencodeDictBytes rest)

mutual
/-- `bencode` from src/torrent.py: canonical encoding; dictionary pairs are
emitted in sorted key order ("Sort keys as required by BitTorrent spec").
The sort is applied to the pairs after encoding the values, which is
equivalent because the comparison only reads the keys (keeping the
recursion structural). -/
def bencode : BValue → List Nat
  | .int i => 105 :: (intToBytes i ++ [101])
  | .str s => encStr s
  | .list l => 108 :: (bencodeList l ++ [101])
  | .dict d => 100 :: (bencodeDictBytes (pySortPairs (bencodePairs d)) ++ [101])

/-- Encode each element of a list in order. -/
def bencodeList : List BValue → List Nat
  | [] => []
  | v :: rest => bencode v ++ bencodeList rest

/-- Encode the value of each dictionary pair, keeping keys and order. -/
def bencodePairs : List (List Nat × BValue) → List (List Nat × List Nat)
  | [] => []
  | (k, v) :: rest => (k, bencode v) :: bencodePairs rest
end

/-- First binding of a key in an association list (Python `d[k]`). -/
def lookupKey {α : Type} (k : List Nat) : List (List Nat × α) → Option α
  | [] => none
  | (k', v) :: rest => if k' = k then some v else lookupKey k rest

/-- Python `result[key] = value` on an insertion-ordered dict: update in
place if the key exists, else append. -/
def insertPy (acc : List (List Nat × BValue)) (k : List Nat) (v : BValue) :
    List (List Nat × BValue) :=
  if (acc.map Prod.fst).contains k then
    acc.map fun kv => if kv.1 = k then (k, v) else kv
  else acc ++ [(k, v)]

/-- The integer case of `decode_next`: find the first `e` in the suffix
(`data.index(ord('e'), index)`), parse the bytes between `i` and `e` with
`int()`. The argument starts with the byte `i`. -/
def parseIntToken (s : List Nat) : Except Unit (BValue × List Nat) :=
  match s.findIdx? (fun b => b = 101) with
  | none => .error ()
  | some pos =>
      match parsePyInt ((s.take pos).drop 1) with
      | none => .error ()
      | some i => .ok (.int i, s.drop (pos + 1))

/-- The string case of `decode_next`: find the first `:`
(`data.index(ord(':'), index)`), parse the length, check the declared
length fits, slice.  The argument starts with a digit. -/
def parseStrToken (s : List Nat) : Except Unit (BValue × List Nat) :=
  match s.findIdx? (fun b => b = 58) with
  | none => .error ()
  | some pos =>
      match digitsToNat? (s.take pos) with
      | none => .error ()
      | some len =>
          if pos + 1 + len > s.length then .error ()
          else .ok (.str ((s.drop (pos + 1)).take len), s.drop (pos + 1 + len))

mutual
/-- `decode_next` from src/torrent.py, fuel-indexed (the fuel only bounds
the recursion depth; `bdecode` supplies fuel ample for every input, see
`bdecode`).  An exhausted input returns an error: Python returns
`(None, index)` there, which every caller turns into an error or a `None`
result, so the observable behaviour agrees. -/
def decodeNext : Nat → List Nat → Except Unit (BValue × List Nat)
  | 0, _ => .error ()
  | _ + 1, [] => .error ()
  | fuel + 1, c :: s =>
    if c = 105 then parseIntToken (c :: s)
    else if c = 108 then
      match decodeItems fuel s with
      | .ok (items, r) => .ok (.list items, r)
      | .error e => .error e
    else if c = 100 then
      match decodeEntries fuel s [] with
      | .ok (entries, r) => .ok (.dict entries, r)
      | .error e => .error e
    else if 48 ≤ c ∧ c ≤ 57 then parseStrToken (c :: s)
    else .error ()

/-- The list loop of `decode_next`: decode elements until the terminating
`e`; running out of bytes is the "Unterminated list" error. -/
def decodeItems : Nat → List Nat → Except Unit (List BValue × List Nat)
  | 0, _ => .error ()
  | _ + 1, [] => .error ()
  | fuel + 1, c :: s =>
    if c = 101 then .ok ([], s)
    else
      match decodeNext fuel (c :: s) with
      | .error e => .error e
      | .ok (v, r) =>
          match decodeItems fuel r with
          | .error e => .error e
          | .ok (items, r2) => .ok (v :: items, r2)

/-- The dictionary loop of `decode_next`: decode a key (which must be a
byte string) and a value, bind with `result[key] = value`, until the
terminating `e`. -/
def decodeEntries : Nat → List Nat →
    List (List Nat × BValue) → Except Unit (List (List Nat × BValue) × List Nat)
  | 0, _, _ => .error ()
  | _ + 1, [], _ => .error ()
  | fuel + 1, c :: s, acc =>
    if c = 101 then .ok (acc, s)
    else
      match decodeNext fuel (c :: s) with
      | .error e => .error e
      | .ok (.str k, r) =>
          match decodeNext fuel r with
          | .error e => .error e
          | .ok (v, r2) => decodeEntries fuel r2 (insertPy acc k v)
      | .ok _ => .error ()
end

/-- `bdecode` from src/torrent.py: run `decode_next` at index 0, ignore any
trailing bytes, return `None` on any error.  The fuel `2*|input| + 1`
dominates the recursion depth of every parse (each fuel unit accompanies
either a consumed byte or one list/dict element boundary). -/
def bdecode (dat : List Nat) : Option BValue :=
  match decodeNext (2 * dat.length + 1) dat with
  | .ok (v, _) => some v
  | .error _ => none

mutual
/-- The normal form `bdecode (bencode v)` produces: dictionaries re-sorted
by key, recursively. -/
def normVal : BValue → BValue
  | .int i => .int i
  | .str s => .str s
  | .list l => .list (normList l)
  | .dict d => .dict (pySortPairs (normEntries d))

/-- Map `normVal` over a list. -/
def normList : List BValue → List BValue
  | [] => []
  | v :: rest => normVal v :: normList rest

/-- Map `normVal` over dictionary values. -/
def normEntries : List (List Nat × BValue) → List (List Nat × BValue)
  | [] => []
  | (k, v) :: rest => (k, normVal v) :: normEntries rest
end

mutual
/-- A value every Python program can actually hold: the keys of every
dictionary (at every depth) are distinct — Python dicts cannot carry
duplicate keys. -/
def nodupKeysVal : BValue → Bool
  | .int _ => true
  | .str _ => true
  | .list l => nodupKeysList l
  | .dict d => decide (d.map Prod.fst).Nodup && nodupKeysEntries d

/-- `nodupKeysVal` over a list. -/
def nodupKeysList : List BValue → Bool
  | [] => true
  | v :: rest => nodupKeysVal v && nodupKeysList rest

/-- `nodupKeysVal` over dictionary values. -/
def nodupKeysEntries : List (List Nat × BValue) → Bool
  | [] => true
  | (_, v) :: rest => nodupKeysVal v && nodupKeysEntries rest
end

mutual
/-- Python `==` on bencode values: integers, byte strings and lists compare
structurally; dictionaries compare as finite maps (same size, every key of
the left bound in the right to an equal value), ignoring insertion order. -/
def pyEq : BValue → BValue → Bool
  | .int a, .int b => a = b
  | .str a, .str b => a = b
  | .list a, .list b => pyEqList a b
  | .dict a, .dict b => a.length = b.length && pyEqDict a b
  | _, _ => false

/-- Pointwise `pyEq` on lists of equal length. -/
def pyEqList : List BValue → List BValue → Bool
  | [], [] => true
  | a :: as, b :: bs => pyEq a b && pyEqList as bs
  | _, _ => false

/-- Every pair of the first dict is bound in the second to a `pyEq` value. -/
def pyEqDict : List (List Nat × BValue) → List (List Nat × BValue) → Bool
  | [], _ => true
  | (k, v) :: rest, other =>
      (match lookupKey k other with
       | some w => pyEq v w
       | none => false) && pyEqDict rest other
end

mutual
/-- Size measure for strong induction over the nested `BValue` type. -/
def bsizeV : BValue → Nat
  | .int _ => 1
  | .str _ => 1
  | .list l => 1 + bsizeL l
  | .dict d => 1 + bsizeE d

/-- Size of a value list. -/
def bsizeL : List BValue → Nat
  | [] => 0
  | v :: rest => bsizeV v + bsizeL rest + 1

/-- Size of a pair list. -/
def bsizeE : List (List Nat × BValue) → Nat
  | [] => 0
  | (_, v) :: rest => bsizeV v + bsizeE rest + 1
end

/-! ## Torrent info-hash (src/torrent.py, Torrent.load_from_path) -/

/-- The bytes of `b'info'`. -/
def infoKey : List Nat := [105, 110, 102, 111]

/-- The bytes of `b'piece length'`. -/
def pieceLengthKey : List Nat :=
  [112, 105, 101, 99, 101, 32, 108, 101, 110, 103, 116, 104]

/-- The bytes of `b'pieces'`. -/
def piecesKey : List Nat := [112, 105, 101, 99, 101, 115]

/-- The byte string `Torrent.load_from_path` feeds to `hashlib.sha1` when it
accepts a metainfo file: decode the file, require a dictionary containing
`info`, require a positive `piece length` and non-empty `pieces` inside it
(the guards preceding the hash computation), then RE-ENCODE the decoded
info value with `bencode`.  (The later guards — tracker list, file init,
hash-table alignment — run after the hash is already computed and do not
change it.) -/
def infoHashPreimage (dat : List Nat) : Option (List Nat) :=
  match bdecode dat with
  | some (.dict entries) =>
      match lookupKey infoKey entries with
      | some info =>
          match info with
          | .dict ie =>
              (match lookupKey pieceLengthKey ie with
               | some (.int n) => if n ≤ 0 then none else
                  (match lookupKey piecesKey ie with
                   | some (.str ps) => if ps = [] then none else some (bencode info)
                   | _ => none)
               | _ => none)
          | _ => none
      | none => none
  | _ => none

/-- Walk the top-level dictionary pairs, parsing each key and value with the
decoder, and return the exact byte range spanning the value bound to
`info`.  Modelled from the spec: "info-hash equals SHA-1 of the substring
of the input spanning the value bound to key `info`, bit-for-bit" — the
code has no counterpart of this computation, which is the point of C1. -/
def wireSliceLoop : Nat → List Nat → Option (List Nat)
  | 0, _ => none
  | _ + 1, [] => none
  | fuel + 1, c :: s =>
    if c = 101 then none
    else
      match decodeNext fuel (c :: s) with
      | .ok (.str k, r) =>
          (match decodeNext fuel r with
           | .ok (_, r2) =>
               if k = infoKey then some (r.take (r.length - r2.length))
               else wireSliceLoop fuel r2
           | .error _ => none)
      | _ => none

/-- The on-wire byte range of the value bound to key `info` in the
top-level dictionary of a metainfo file (spec-modelled, see
`wireSliceLoop`). -/
def wireInfoSlice (dat : List Nat) : Option (List Nat) :=
  match dat with
  | 100 :: s => wireSliceLoop (2 * dat.length + 1) s
  | _ => none

/-! ## Decimal-digit lemmas -/

theorem natDigitsAux_congr : ∀ n f1 f2, n < f1 → n < f2 →
    natDigitsAux f1 n = natDigitsAux f2 n := by
  intro n
  induction n using Nat.strong_induction_on with
  | _ n IH =>
    intro f1 f2 h1 h2
    obtain ⟨g1, rfl⟩ : ∃ g, f1 = g + 1 := ⟨f1 - 1, by omega⟩
    obtain ⟨g2, rfl⟩ : ∃ g, f2 = g + 1 := ⟨f2 - 1, by omega⟩
    simp only [natDigitsAux]
    split
    · rfl
    · rename_i h10
      rw [IH (n / 10) (by omega) g1 g2 (by omega) (by omega)]

theorem natDigits_eq (n : Nat) :
    natDigits n = if n < 10 then [48 + n] else natDigits (n / 10) ++ [48 + n % 10] := by
  unfold natDigits
  conv_lhs => rw [natDigitsAux]
  split
  · rfl
  · rename_i h10
    rw [natDigitsAux_congr (n / 10) n (n / 10 + 1) (by omega) (by omega)]

theorem natDigits_ne_nil (n : Nat) : natDigits n ≠ [] := by
  rw [natDigits_eq]
  split
  · simp
  · simp

theorem natDigits_digits : ∀ n, ∀ c ∈ natDigits n, 48 ≤ c ∧ c ≤ 57 := by
  intro n
  induction n using Nat.strong_induction_on with
  | _ n IH =>
    intro c hc
    rw [natDigits_eq] at hc
    split at hc
    · simp only [List.mem_singleton] at hc
      omega
    · rename_i h10
      rw [List.mem_append] at hc
      rcases hc with hc | hc
      · exact IH (n / 10) (by omega) c hc
      · simp only [List.mem_singleton] at hc
        have := Nat.mod_lt n (show 0 < 10 by omega)
        omega

theorem foldl_digitStep_natDigits : ∀ n a,
    (natDigits n).foldl digitStep (some a) =
      some (a * 10 ^ (natDigits n).length + n) := by
  intro n
  induction n using Nat.strong_induction_on with
  | _ n IH =>
    intro a
    conv_lhs => rw [natDigits_eq]
    conv_rhs => rw [natDigits_eq]
    split
    · rename_i h10
      simp only [List.foldl_cons, List.foldl_nil, digitStep, Option.bind_eq_bind,
        Option.some_bind, List.length_cons, List.length_nil]
      rw [if_pos (by omega)]
      congr 1
      simp only [pow_one, Nat.zero_add]
      omega
    · rename_i h10
      rw [List.foldl_append, IH (n / 10) (by omega) a]
      simp only [List.foldl_cons, List.foldl_nil, digitStep, Option.bind_eq_bind,
        Option.some_bind, List.length_append, List.length_cons, List.length_nil]
      rw [if_pos (by omega)]
      congr 1
      have hmod := Nat.mod_lt n (show 0 < 10 by omega)
      have hdm := Nat.div_add_mod n 10
      rw [pow_succ]
      ring_nf
      omega

theorem digitsToNat?_natDigits (n : Nat) : digitsToNat? (natDigits n) = some n := by
  unfold digitsToNat?
  rw [if_neg (natDigits_ne_nil n), foldl_digitStep_natDigits n 0]
  simp

theorem parsePyInt_intToBytes (i : Int) : parsePyInt (intToBytes i) = some i := by
  unfold intToBytes
  split
  · rename_i hneg
    show parsePyInt (45 :: natDigits i.natAbs) = some i
    unfold parsePyInt
    dsimp only
    rw [if_pos rfl, digitsToNat?_natDigits]
    simp only [Option.pure_def, Option.bind_eq_bind, Option.some_bind,
      Option.map_some', Option.some.injEq]
    omega
  · rename_i hpos
    obtain ⟨c, ds, hds⟩ : ∃ c ds, natDigits i.toNat = c :: ds := by
      rcases h : natDigits i.toNat with _ | ⟨c, ds⟩
      · exact absurd h (natDigits_ne_nil _)
      · exact ⟨c, ds, rfl⟩
    have hc := natDigits_digits i.toNat c (by rw [hds]; exact List.mem_cons_self c ds)
    rw [hds]
    unfold parsePyInt
    dsimp only
    rw [if_neg (by omega), if_neg (by omega), ← hds, digitsToNat?_natDigits]
    simp only [Option.pure_def, Option.bind_eq_bind, Option.some_bind,
      Option.map_some', Option.some.injEq]
    omega

/-- The first index satisfying `p` in `pre ++ x :: post` is `pre.length`
when nothing in `pre` satisfies `p` and `x` does. -/
theorem findIdx?_first (p : Nat → Bool) :
    ∀ (pre : List Nat) (x : Nat) (post : List Nat),
      (∀ c ∈ pre, p c = false) → p x = true →
      List.findIdx? p (pre ++ x :: post) = some pre.length := by
  intro pre
  induction pre with
  | nil =>
      intro x post _ hx
      simp [List.findIdx?_cons, hx]
  | cons a pre IH =>
      intro x post hpre hx
      have ha : p a = false := hpre a (List.mem_cons_self a pre)
      rw [List.cons_append, List.findIdx?_cons, ha]
      simp only [Bool.false_eq_true, if_false, List.findIdx?_succ]
      rw [IH x post (fun c hc => hpre c (List.mem_cons_of_mem a hc)) hx]
      rfl

theorem parseIntToken_enc (i : Int) (rest : List Nat) :
    parseIntToken (105 :: (intToBytes i ++ (101 :: rest))) = .ok (.int i, rest) := by
  unfold parseIntToken
  have hdig : ∀ c ∈ intToBytes i, (decide (c = 101)) = false := by
    intro c hc
    unfold intToBytes at hc
    simp only [decide_eq_false_iff_not]
    split at hc
    · rcases List.mem_cons.mp hc with h | h
      · omega
      · have := natDigits_digits _ c h
        omega
    · have := natDigits_digits _ c hc
      omega
  have hfind : List.findIdx? (fun b => decide (b = 101))
      ((105 :: intToBytes i) ++ 101 :: rest) = some (105 :: intToBytes i).length := by
    refine findIdx?_first _ _ _ _ ?_ (by simp)
    intro c hc
    rcases List.mem_cons.mp hc with h | h
    · simp [h]
    · exact hdig c h
  rw [show (105 :: (intToBytes i ++ (101 :: rest))) =
      (105 :: intToBytes i) ++ 101 :: rest by simp]
  rw [hfind]
  dsimp only
  have htake : ((105 :: intToBytes i) ++ 101 :: rest).take (105 :: intToBytes i).length
      = 105 :: intToBytes i := List.take_left' rfl
  rw [htake]
  simp only [List.drop_succ_cons, List.drop_zero]
  rw [parsePyInt_intToBytes]
  have hdrop : ((105 :: intToBytes i) ++ 101 :: rest).drop ((105 :: intToBytes i).length + 1)
      = rest := by
    rw [← List.drop_drop, List.drop_left' rfl]
    simp
  rw [hdrop]

theorem parseStrToken_enc (s rest : List Nat) :
    parseStrToken (encStr s ++ rest) = .ok (.str s, rest) := by
  unfold parseStrToken encStr
  have hfind : List.findIdx? (fun b => decide (b = 58))
      ((natDigits s.length ++ (58 :: s)) ++ rest) = some (natDigits s.length).length := by
    rw [List.append_assoc, List.cons_append]
    refine findIdx?_first _ _ _ _ ?_ (by simp)
    intro c hc
    have := natDigits_digits _ c hc
    simp only [decide_eq_false_iff_not]
    omega
  rw [hfind]
  dsimp only
  have htake : ((natDigits s.length ++ (58 :: s)) ++ rest).take (natDigits s.length).length
      = natDigits s.length := by
    rw [List.append_assoc]
    exact List.take_left' rfl
  rw [htake, digitsToNat?_natDigits]
  dsimp only
  have hlen : ((natDigits s.length ++ (58 :: s)) ++ rest).length
      = (natDigits s.length).length + 1 + s.length + rest.length := by
    simp
    omega
  rw [if_neg (by omega)]
  have hdrop1 : ((natDigits s.length ++ (58 :: s)) ++ rest).drop
      ((natDigits s.length).length + 1) = s ++ rest := by
    rw [List.append_assoc]
    rw [show natDigits s.length ++ (58 :: s ++ rest) =
      (natDigits s.length ++ [58]) ++ (s ++ rest) by simp]
    exact List.drop_left' (by simp)
  have hdrop2 : ((natDigits s.length ++ (58 :: s)) ++ rest).drop
      ((natDigits s.length).length + 1 + s.length) = rest := by
    rw [← List.drop_drop, hdrop1]
    exact List.drop_left' rfl
  rw [hdrop1, hdrop2, List.take_left' rfl]

/-- Every encoded value starts with a type tag or a digit — never with the
terminator `e`. -/
theorem bencode_head (v : BValue) :
    ∃ c s, bencode v = c :: s ∧ c ≠ 101 := by
  cases v with
  | int i => exact ⟨105, _, rfl, by omega⟩
  | str s =>
      obtain ⟨c, ds, hds⟩ : ∃ c ds, natDigits s.length = c :: ds := by
        rcases h : natDigits s.length with _ | ⟨c, ds⟩
        · exact absurd h (natDigits_ne_nil _)
        · exact ⟨c, ds, rfl⟩
      have hc := natDigits_digits s.length c (by rw [hds]; exact List.mem_cons_self c ds)
      refine ⟨c, ds ++ (58 :: s), ?_, by omega⟩
      show encStr s = _
      unfold encStr
      rw [hds]
      rfl
  | list l => exact ⟨108, _, rfl, by omega⟩
  | dict d => exact ⟨100, _, rfl, by omega⟩

theorem bencode_ne_nil (v : BValue) : bencode v ≠ [] := by
  obtain ⟨c, s, h, _⟩ := bencode_head v
  rw [h]
  simp

/-! ## Lexicographic order and the stable key sort -/

theorem lexLt_asymm : ∀ a b, lexLt a b = true → lexLt b a = false := by
  intro a
  induction a with
  | nil => intro b _; cases b <;> rfl
  | cons x xs IH =>
      intro b hab
      cases b with
      | nil => cases hab
      | cons y ys =>
          unfold lexLt at hab ⊢
          split_ifs at hab ⊢ <;> first | rfl | omega | exact IH ys hab | cases hab

theorem lexLt_trans_neg : ∀ a b c, lexLt b a = false → lexLt c b = false →
    lexLt c a = false := by
  intro a
  induction a with
  | nil =>
      intro b c _ _
      cases c <;> rfl
  | cons x xs IH =>
      intro b c hba hcb
      cases b with
      | nil => simp [lexLt] at hba
      | cons z zs =>
          cases c with
          | nil => simp [lexLt] at hcb
          | cons y ys =>
              unfold lexLt at hba hcb ⊢
              split_ifs at hba hcb ⊢ <;>
                first | rfl | omega | exact IH zs ys hba hcb | simp_all

/-- Keys appear in non-strictly ascending order. -/
def SortedKeys {α : Type} (l : List (List Nat × α)) : Prop :=
  l.Pairwise (fun p q => lexLt q.1 p.1 = false)

theorem pyInsert_perm {α : Type} (p : List Nat × α) :
    ∀ l : List (List Nat × α), (pyInsert p l).Perm (p :: l) := by
  intro l
  induction l with
  | nil => exact List.Perm.refl _
  | cons q rest IH =>
      unfold pyInsert
      split
      · exact ((IH.cons q).trans (List.Perm.swap p q rest))
      · exact List.Perm.refl _

theorem pySortPairs_perm {α : Type} :
    ∀ l : List (List Nat × α), (pySortPairs l).Perm l := by
  intro l
  induction l with
  | nil => exact List.Perm.refl _
  | cons p rest IH =>
      exact (pyInsert_perm p (pySortPairs rest)).trans (IH.cons p)

theorem pyInsert_sorted {α : Type} (p : List Nat × α) :
    ∀ l : List (List Nat × α), SortedKeys l → SortedKeys (pyInsert p l) := by
  intro l
  induction l with
  | nil => intro _; exact List.Pairwise.cons (by simp) List.Pairwise.nil
  | cons q rest IH =>
      intro hs
      have hq := List.Pairwise.of_cons hs
      have hqall : ∀ r ∈ rest, lexLt r.1 q.1 = false :=
        fun r hr => List.rel_of_pairwise_cons hs hr
      unfold pyInsert
      split
      · rename_i hlt
        refine List.Pairwise.cons ?_ (IH hq)
        intro r hr
        have hr' := (pyInsert_perm p rest).mem_iff.mp hr
        rcases List.mem_cons.mp hr' with h | h
        · subst h
          exact lexLt_asymm _ _ hlt
        · exact hqall _ h
      · rename_i hnlt
        refine List.Pairwise.cons ?_ hs
        intro r hr
        rcases List.mem_cons.mp hr with h | h
        · subst h
          simpa using hnlt
        · exact lexLt_trans_neg _ _ _ (by simpa using hnlt) (hqall _ h)

theorem pySortPairs_sorted {α : Type} :
    ∀ l : List (List Nat × α), SortedKeys (pySortPairs l) := by
  intro l
  induction l with
  | nil => exact List.Pairwise.nil
  | cons p rest IH => exact pyInsert_sorted p _ IH

theorem pySortPairs_eq_self {α : Type} :
    ∀ l : List (List Nat × α), SortedKeys l → pySortPairs l = l := by
  intro l
  induction l with
  | nil => intro _; rfl
  | cons p rest IH =>
      intro hs
      have hq := List.Pairwise.of_cons hs
      show pyInsert p (pySortPairs rest) = p :: rest
      rw [IH hq]
      cases rest with
      | nil => rfl
      | cons q rest2 =>
          have hpq : lexLt q.1 p.1 = false :=
            List.rel_of_pairwise_cons hs (List.mem_cons_self q rest2)
          unfold pyInsert
          rw [if_neg (by simp [hpq])]

theorem pySortPairs_idem {α : Type} (l : List (List Nat × α)) :
    pySortPairs (pySortPairs l) = pySortPairs l :=
  pySortPairs_eq_self _ (pySortPairs_sorted l)

theorem pyInsert_map {α β : Type} (f : α → β) (k : List Nat) (v : α) :
    ∀ l : List (List Nat × α),
      pyInsert (k, f v) (l.map (fun kv => (kv.1, f kv.2))) =
        (pyInsert (k, v) l).map (fun kv => (kv.1, f kv.2)) := by
  intro l
  induction l with
  | nil => rfl
  | cons q rest IH =>
      rcases q with ⟨qk, qv⟩
      simp only [List.map_cons]
      unfold pyInsert
      dsimp only
      by_cases h : lexLt qk k = true
      · rw [if_pos h, if_pos h, IH, List.map_cons]
      · rw [if_neg h, if_neg h, List.map_cons, List.map_cons]

theorem pySortPairs_map {α β : Type} (f : α → β) :
    ∀ l : List (List Nat × α),
      pySortPairs (l.map (fun kv => (kv.1, f kv.2))) =
        (pySortPairs l).map (fun kv => (kv.1, f kv.2)) := by
  intro l
  induction l with
  | nil => rfl
  | cons p rest IH =>
      simp only [List.map_cons]
      show pyInsert (p.1, f p.2) _ = _
      rw [IH, pyInsert_map]
      rfl

/-! ## Maps between the encoder, the normal form and the pair lists -/

theorem bencodePairs_eq_map : ∀ d : List (List Nat × BValue),
    bencodePairs d = d.map (fun kv => (kv.1, bencode kv.2)) := by
  intro d
  induction d with
  | nil => rfl
  | cons kv rest IH =>
      rcases kv with ⟨k, v⟩
      show (k, bencode v) :: bencodePairs rest = _
      rw [IH]
      rfl

theorem normEntries_eq_map : ∀ d : List (List Nat × BValue),
    normEntries d = d.map (fun kv => (kv.1, normVal kv.2)) := by
  intro d
  induction d with
  | nil => rfl
  | cons kv rest IH =>
      rcases kv with ⟨k, v⟩
      show (k, normVal v) :: normEntries rest = _
      rw [IH]
      rfl

theorem normList_eq_map : ∀ l : List BValue, normList l = l.map normVal := by
  intro l
  induction l with
  | nil => rfl
  | cons v rest IH =>
      show normVal v :: normList rest = _
      rw [IH]
      rfl

/-- Sorting the pairs commutes with encoding the values. -/
theorem sort_bencodePairs (d : List (List Nat × BValue)) :
    pySortPairs (bencodePairs d) = bencodePairs (pySortPairs d) := by
  rw [bencodePairs_eq_map, pySortPairs_map, ← bencodePairs_eq_map]

/-- Sorting the pairs commutes with normalizing the values. -/
theorem sort_normEntries (d : List (List Nat × BValue)) :
    pySortPairs (normEntries d) = normEntries (pySortPairs d) := by
  rw [normEntries_eq_map, pySortPairs_map, ← normEntries_eq_map]

/-- On a fresh key, the Python dict assignment appends. -/
theorem insertPy_append (acc : List (List Nat × BValue)) (k : List Nat) (v : BValue)
    (h : k ∉ acc.map Prod.fst) : insertPy acc k v = acc ++ [(k, v)] := by
  unfold insertPy
  rw [if_neg]
  simpa using h

theorem natDigits_cons (n : Nat) :
    ∃ c ds, natDigits n = c :: ds ∧ 48 ≤ c ∧ c ≤ 57 := by
  rcases h : natDigits n with _ | ⟨c, ds⟩
  · exact absurd h (natDigits_ne_nil n)
  · have hc := natDigits_digits n c (by rw [h]; exact List.mem_cons_self c ds)
    exact ⟨c, ds, rfl, hc.1, hc.2⟩

theorem encStr_length (s : List Nat) :
    (encStr s).length = (natDigits s.length).length + 1 + s.length := by
  unfold encStr
  simp
  omega

theorem encStr_length_pos (s : List Nat) : 1 ≤ (encStr s).length := by
  rw [encStr_length]
  omega

theorem all_perm {α : Type} (p : α → Bool) {l l' : List α} (h : l.Perm l') :
    l.all p = l'.all p := by
  apply Bool.eq_iff_iff.mpr
  simp only [List.all_eq_true]
  exact ⟨fun H x hx => H x (h.mem_iff.mpr hx), fun H x hx => H x (h.mem_iff.mp hx)⟩

theorem nodupKeysEntries_eq_all : ∀ ps : List (List Nat × BValue),
    nodupKeysEntries ps = ps.all (fun kv => nodupKeysVal kv.2) := by
  intro ps
  induction ps with
  | nil => rfl
  | cons kv rest IH =>
      rcases kv with ⟨k, v⟩
      have h1 : nodupKeysEntries ((k, v) :: rest) =
          (nodupKeysVal v && nodupKeysEntries rest) := rfl
      rw [h1, IH, List.all_cons]

theorem nodupKeysEntries_perm {ps ps' : List (List Nat × BValue)}
    (h : ps.Perm ps') : nodupKeysEntries ps = nodupKeysEntries ps' := by
  rw [nodupKeysEntries_eq_all, nodupKeysEntries_eq_all]
  exact all_perm _ h

/-- Decoding an encoded value (with ample fuel) succeeds, consumes exactly
the encoding, and yields the normal form; simultaneously for the list loop
and the dictionary loop. -/
theorem decode_bencode : ∀ fuel : Nat,
    (∀ v rest, nodupKeysVal v = true → 2 * (bencode v).length ≤ fuel →
       decodeNext fuel (bencode v ++ rest) = .ok (normVal v, rest)) ∧
    (∀ l rest, nodupKeysList l = true → 2 * (bencodeList l).length + 1 ≤ fuel →
       decodeItems fuel (bencodeList l ++ (101 :: rest)) = .ok (normList l, rest)) ∧
    (∀ ps acc rest, nodupKeysEntries ps = true →
       (acc.map Prod.fst ++ ps.map Prod.fst).Nodup →
       2 * (bencodeDictBytes (bencodePairs ps)).length + 1 ≤ fuel →
       decodeEntries fuel (bencodeDictBytes (bencodePairs ps) ++ (101 :: rest)) acc =
         .ok (acc ++ normEntries ps, rest)) := by
  intro fuel
  induction fuel using Nat.strong_induction_on with
  | _ fuel IH =>
    refine ⟨?_, ?_, ?_⟩
    · -- values
      intro v rest hnd hfuel
      have hlen : 1 ≤ (bencode v).length :=
        List.length_pos.mpr (bencode_ne_nil v)
      obtain ⟨f, rfl⟩ : ∃ f, fuel = f + 1 := ⟨fuel - 1, by omega⟩
      cases v with
      | int i =>
          have hexp : bencode (.int i) ++ rest =
              105 :: (intToBytes i ++ (101 :: rest)) := by
            show (105 :: (intToBytes i ++ [101])) ++ rest = _
            simp
          rw [hexp]
          simp only [decodeNext]
          rw [if_pos trivial]
          exact parseIntToken_enc i rest
      | str s =>
          obtain ⟨c, ds, hds, hc1, hc2⟩ := natDigits_cons s.length
          have hexp : bencode (.str s) ++ rest = c :: ((ds ++ (58 :: s)) ++ rest) := by
            show encStr s ++ rest = _
            unfold encStr
            rw [hds]
            simp
          rw [hexp]
          simp only [decodeNext]
          rw [if_neg (by omega), if_neg (by omega), if_neg (by omega),
            if_pos (by omega : 48 ≤ c ∧ c ≤ 57)]
          rw [← hexp]
          exact parseStrToken_enc s rest
      | list l =>
          have hexp : bencode (.list l) ++ rest =
              108 :: (bencodeList l ++ (101 :: rest)) := by
            show (108 :: (bencodeList l ++ [101])) ++ rest = _
            simp
          rw [hexp]
          simp only [decodeNext]
          rw [if_neg (by omega), if_pos trivial]
          have hitems := (IH f (by omega)).2.1 l rest hnd (by
            have : (bencode (.list l)).length = (bencodeList l).length + 2 := by
              show (108 :: (bencodeList l ++ [101])).length = _
              simp
            omega)
          rw [hitems]
          rfl
      | dict d =>
          have hnd2 : (d.map Prod.fst).Nodup ∧ nodupKeysEntries d = true := by
            have h := hnd
            rw [show nodupKeysVal (BValue.dict d) =
              (decide ((d.map Prod.fst).Nodup) && nodupKeysEntries d) from rfl,
              Bool.and_eq_true, decide_eq_true_eq] at h
            exact h
          have hexp : bencode (.dict d) ++ rest =
              100 :: (bencodeDictBytes (bencodePairs (pySortPairs d)) ++ (101 :: rest)) := by
            show (100 :: (bencodeDictBytes (pySortPairs (bencodePairs d)) ++ [101])) ++ rest = _
            rw [sort_bencodePairs]
            simp
          rw [hexp]
          simp only [decodeNext]
          rw [if_neg (by omega), if_neg (by omega), if_pos trivial]
          have hperm : (pySortPairs d).Perm d := pySortPairs_perm d
          have hentries := (IH f (by omega)).2.2 (pySortPairs d) [] rest
            (by rw [nodupKeysEntries_perm hperm]; exact hnd2.2)
            (by
              simp only [List.map_nil, List.nil_append]
              exact ((hperm.map Prod.fst).nodup_iff).mpr hnd2.1)
            (by
              have : (bencode (.dict d)).length =
                  (bencodeDictBytes (bencodePairs (pySortPairs d))).length + 2 := by
                show (100 :: (bencodeDictBytes (pySortPairs (bencodePairs d)) ++ [101])).length = _
                rw [sort_bencodePairs]
                simp
              omega)
          rw [hentries]
          show Except.ok (BValue.dict ([] ++ normEntries (pySortPairs d)), rest) = _
          rw [List.nil_append, ← sort_normEntries]
          rfl
    · -- list items
      intro l rest hnd hfuel
      obtain ⟨f, rfl⟩ : ∃ f, fuel = f + 1 := ⟨fuel - 1, by omega⟩
      cases l with
      | nil =>
          show decodeItems (f + 1) ([] ++ (101 :: rest)) = _
          rw [List.nil_append]
          simp only [decodeItems]
          rw [if_pos trivial]
          rfl
      | cons v tl =>
          have hndv : nodupKeysVal v = true ∧ nodupKeysList tl = true := by
            have h : (nodupKeysVal v && nodupKeysList tl) = true := hnd
            rwa [Bool.and_eq_true] at h
          have hlenv : 1 ≤ (bencode v).length :=
            List.length_pos.mpr (bencode_ne_nil v)
          obtain ⟨c, bs, hbs, hcne⟩ := bencode_head v
          have hexp : bencodeList (v :: tl) ++ (101 :: rest) =
              c :: (bs ++ (bencodeList tl ++ (101 :: rest))) := by
            show (bencode v ++ bencodeList tl) ++ (101 :: rest) = _
            rw [hbs]
            simp
          rw [hexp]
          simp only [decodeItems]
          rw [if_neg hcne]
          have hlens : (bencodeList (v :: tl)).length =
              (bencode v).length + (bencodeList tl).length := by
            show (bencode v ++ bencodeList tl).length = _
            simp
          have hv := (IH f (by omega)).1 v (bencodeList tl ++ (101 :: rest))
            hndv.1 (by omega)
          rw [hbs, List.cons_append] at hv
          rw [hv]
          dsimp only
          have htl := (IH f (by omega)).2.1 tl rest hndv.2 (by omega)
          rw [htl]
          rfl
    · -- dictionary entries
      intro ps acc rest hnd hkeys hfuel
      obtain ⟨f, rfl⟩ : ∃ f, fuel = f + 1 := ⟨fuel - 1, by omega⟩
      cases ps with
      | nil =>
          show decodeEntries (f + 1) ([] ++ (101 :: rest)) acc = _
          rw [List.nil_append]
          simp only [decodeEntries]
          rw [if_pos trivial]
          show Except.ok (acc, rest) = _
          rw [show normEntries [] = [] from rfl, List.append_nil]
      | cons kv pr =>
          rcases kv with ⟨k, v⟩
          have hndv : nodupKeysVal v = true ∧ nodupKeysEntries pr = true := by
            have h : (nodupKeysVal v && nodupKeysEntries pr) = true := hnd
            rwa [Bool.and_eq_true] at h
          have hlenv : 1 ≤ (bencode v).length :=
            List.length_pos.mpr (bencode_ne_nil v)
          have hlenk : 1 ≤ (encStr k).length := encStr_length_pos k
          have hbytes : bencodeDictBytes (bencodePairs ((k, v) :: pr)) =
              encStr k ++ (bencode v ++ bencodeDictBytes (bencodePairs pr)) := rfl
          obtain ⟨c, ds, hds, hc1, hc2⟩ := natDigits_cons k.length
          have hexpk : encStr k = c :: (ds ++ (58 :: k)) := by
            unfold encStr
            rw [hds]
            rfl
          have hexp : bencodeDictBytes (bencodePairs ((k, v) :: pr)) ++ (101 :: rest) =
              c :: ((ds ++ (58 :: k)) ++
                (bencode v ++ (bencodeDictBytes (bencodePairs pr) ++ (101 :: rest)))) := by
            rw [hbytes, hexpk]
            simp
          rw [hexp]
          simp only [decodeEntries]
          rw [if_neg (by omega : ¬ c = 101)]
          have hkey := (IH f (by omega)).1 (.str k)
            (bencode v ++ (bencodeDictBytes (bencodePairs pr) ++ (101 :: rest)))
            rfl
            (by
              have hbl : (bencodeDictBytes (bencodePairs ((k, v) :: pr))).length =
                  (encStr k).length + (bencode v).length +
                    (bencodeDictBytes (bencodePairs pr)).length := by
                rw [hbytes]; simp only [List.length_append]; omega
              have h2 : (bencode (.str k)).length = (encStr k).length := rfl
              omega)
          rw [show bencode (.str k) = encStr k from rfl, hexpk,
            List.cons_append] at hkey
          rw [hkey]
          simp only [normVal]
          have hval := (IH f (by omega)).1 v
            (bencodeDictBytes (bencodePairs pr) ++ (101 :: rest))
            hndv.1
            (by
              have hbl : (bencodeDictBytes (bencodePairs ((k, v) :: pr))).length =
                  (encStr k).length + (bencode v).length +
                    (bencodeDictBytes (bencodePairs pr)).length := by
                rw [hbytes]; simp only [List.length_append]; omega
              omega)
          rw [hval]
          dsimp only
          have hknotin : k ∉ acc.map Prod.fst := by
            rw [List.nodup_append] at hkeys
            intro hmem
            exact hkeys.2.2 hmem (by simp)
          rw [insertPy_append acc k (normVal v) hknotin]
          have hrec := (IH f (by omega)).2.2 pr (acc ++ [(k, normVal v)]) rest
            hndv.2
            (by
              have : (acc ++ [(k, normVal v)]).map Prod.fst ++ pr.map Prod.fst =
                  acc.map Prod.fst ++ (k :: pr.map Prod.fst) := by simp
              rw [this]
              exact hkeys)
            (by
              have hbl : (bencodeDictBytes (bencodePairs ((k, v) :: pr))).length =
                  (encStr k).length + (bencode v).length +
                    (bencodeDictBytes (bencodePairs pr)).length := by
                rw [hbytes]; simp only [List.length_append]; omega
              omega)
          rw [hrec]
          rw [show normEntries ((k, v) :: pr) = (k, normVal v) :: normEntries pr from rfl]
          simp

/-! ## Size bounds and lookup lemmas for the nested value type -/

theorem bsizeV_pos (v : BValue) : 1 ≤ bsizeV v := by
  cases v <;> simp [bsizeV] <;> omega

theorem bsizeL_mem : ∀ (l : List BValue) (v : BValue), v ∈ l →
    bsizeV v < 1 + bsizeL l := by
  intro l
  induction l with
  | nil => intro v hv; cases hv
  | cons w rest IH =>
      intro v hv
      have hsz : bsizeL (w :: rest) = bsizeV w + bsizeL rest + 1 := rfl
      rcases List.mem_cons.mp hv with h | h
      · subst h; omega
      · have := IH v h; omega

theorem bsizeE_mem : ∀ (d : List (List Nat × BValue)) (kv : List Nat × BValue),
    kv ∈ d → bsizeV kv.2 < 1 + bsizeE d := by
  intro d
  induction d with
  | nil => intro kv hkv; cases hkv
  | cons p rest IH =>
      intro kv hkv
      rcases p with ⟨k, w⟩
      have hsz : bsizeE ((k, w) :: rest) = bsizeV w + bsizeE rest + 1 := rfl
      rcases List.mem_cons.mp hkv with h | h
      · subst h; simp only []; omega
      · have := IH kv h; omega

theorem bsizeE_eq_sum : ∀ d : List (List Nat × BValue),
    bsizeE d = (d.map (fun kv => bsizeV kv.2 + 1)).sum := by
  intro d
  induction d with
  | nil => rfl
  | cons p rest IH =>
      rcases p with ⟨k, w⟩
      have hsz : bsizeE ((k, w) :: rest) = bsizeV w + bsizeE rest + 1 := rfl
      rw [hsz, IH]
      simp
      omega

theorem bsizeE_perm {d d' : List (List Nat × BValue)} (h : d.Perm d') :
    bsizeE d = bsizeE d' := by
  rw [bsizeE_eq_sum, bsizeE_eq_sum]
  exact (h.map _).sum_eq

theorem lookupKey_of_mem : ∀ (d : List (List Nat × BValue)) (k : List Nat) (v : BValue),
    (d.map Prod.fst).Nodup → (k, v) ∈ d → lookupKey k d = some v := by
  intro d
  induction d with
  | nil => intro k v _ h; cases h
  | cons p rest IH =>
      intro k v hnd hmem
      rcases p with ⟨k', v'⟩
      simp only [List.map_cons, List.nodup_cons] at hnd
      unfold lookupKey
      rcases List.mem_cons.mp hmem with h | h
      · cases h
        rw [if_pos rfl]
      · have hne : k' ≠ k := by
          intro heq
          subst heq
          exact hnd.1 (List.mem_map.mpr ⟨(k', v), h, rfl⟩)
        rw [if_neg hne]
        exact IH k v hnd.2 h

theorem nodupKeysList_eq_all : ∀ l : List BValue,
    nodupKeysList l = l.all nodupKeysVal := by
  intro l
  induction l with
  | nil => rfl
  | cons v rest IH =>
      have h1 : nodupKeysList (v :: rest) = (nodupKeysVal v && nodupKeysList rest) := rfl
      rw [h1, IH, List.all_cons]

theorem nodupKeysList_mem {l : List BValue} (h : nodupKeysList l = true) :
    ∀ v ∈ l, nodupKeysVal v = true := by
  rw [nodupKeysList_eq_all, List.all_eq_true] at h
  exact h

theorem nodupKeysEntries_mem {d : List (List Nat × BValue)}
    (h : nodupKeysEntries d = true) : ∀ kv ∈ d, nodupKeysVal kv.2 = true := by
  rw [nodupKeysEntries_eq_all, List.all_eq_true] at h
  exact h

theorem pyEqDict_eq_all : ∀ ps other : List (List Nat × BValue),
    pyEqDict ps other = ps.all (fun kv =>
      match lookupKey kv.1 other with
      | some w => pyEq kv.2 w
      | none => false) := by
  intro ps other
  induction ps with
  | nil => rfl
  | cons kv rest IH =>
      rcases kv with ⟨k, v⟩
      have h1 : pyEqDict ((k, v) :: rest) other =
          ((match lookupKey k other with
            | some w => pyEq v w
            | none => false) && pyEqDict rest other) := rfl
      rw [h1, IH, List.all_cons]

/-- The decoded normal form is Python-equal to the original value. -/
theorem pyEq_norm : ∀ n v, bsizeV v ≤ n → nodupKeysVal v = true →
    pyEq (normVal v) v = true := by
  intro n
  induction n with
  | zero =>
      intro v hv _
      have := bsizeV_pos v
      omega
  | succ n IH =>
      intro v hv hnd
      cases v with
      | int i => simp [normVal, pyEq]
      | str s => simp [normVal, pyEq]
      | list l =>
          show pyEqList (normList l) l = true
          have hsz : ∀ v ∈ l, bsizeV v ≤ n := by
            intro v hvl
            have h1 := bsizeL_mem l v hvl
            have h2 : bsizeV (BValue.list l) = 1 + bsizeL l := rfl
            omega
          have hmem := nodupKeysList_mem (show nodupKeysList l = true from hnd)
          clear hv hnd
          induction l with
          | nil => rfl
          | cons v rest IHl =>
              have h1 : pyEqList (normVal v :: normList rest) (v :: rest) =
                  (pyEq (normVal v) v && pyEqList (normList rest) rest) := rfl
              show pyEqList (normVal v :: normList rest) (v :: rest) = true
              rw [h1, Bool.and_eq_true]
              refine ⟨IH v (hsz v (by simp)) (hmem v (by simp)), ?_⟩
              exact IHl (fun w hw => hsz w (List.mem_cons_of_mem v hw))
                (fun w hw => hmem w (List.mem_cons_of_mem v hw))
      | dict d =>
          have hnd2 : (d.map Prod.fst).Nodup ∧ nodupKeysEntries d = true := by
            have h := hnd
            rw [show nodupKeysVal (BValue.dict d) =
              (decide ((d.map Prod.fst).Nodup) && nodupKeysEntries d) from rfl,
              Bool.and_eq_true, decide_eq_true_eq] at h
            exact h
          show (decide ((pySortPairs (normEntries d)).length = d.length) &&
            pyEqDict (pySortPairs (normEntries d)) d) = true
          rw [Bool.and_eq_true, decide_eq_true_eq]
          constructor
          · rw [(pySortPairs_perm (normEntries d)).length_eq, normEntries_eq_map]
            simp
          · rw [pyEqDict_eq_all, List.all_eq_true]
            intro kv hkv
            have hkv2 : kv ∈ normEntries d :=
              (pySortPairs_perm (normEntries d)).mem_iff.mp hkv
            rw [normEntries_eq_map] at hkv2
            obtain ⟨⟨k, v⟩, hmem, hkveq⟩ := List.mem_map.mp hkv2
            subst hkveq
            have hlook : lookupKey k d = some v :=
              lookupKey_of_mem d k v hnd2.1 hmem
            simp only [hlook]
            have hszv : bsizeV v ≤ n := by
              have h1 : bsizeV v < 1 + bsizeE d := bsizeE_mem d (k, v) hmem
              have h2 : bsizeV (BValue.dict d) = 1 + bsizeE d := rfl
              omega
            exact IH v hszv (nodupKeysEntries_mem hnd2.2 (k, v) hmem)

/-- Re-encoding the normal form reproduces the canonical encoding. -/
theorem bencode_norm : ∀ n v, bsizeV v ≤ n → nodupKeysVal v = true →
    bencode (normVal v) = bencode v := by
  intro n
  induction n with
  | zero =>
      intro v hv _
      have := bsizeV_pos v
      omega
  | succ n IH =>
      intro v hv hnd
      cases v with
      | int i => rfl
      | str s => rfl
      | list l =>
          show 108 :: (bencodeList (normList l) ++ [101]) = _
          have hsz : ∀ v ∈ l, bsizeV v ≤ n := by
            intro v hvl
            have h1 := bsizeL_mem l v hvl
            have h2 : bsizeV (BValue.list l) = 1 + bsizeL l := rfl
            omega
          have hmem := nodupKeysList_mem (show nodupKeysList l = true from hnd)
          have hbl : bencodeList (normList l) = bencodeList l := by
            clear hv hnd
            induction l with
            | nil => rfl
            | cons v rest IHl =>
                show bencode (normVal v) ++ bencodeList (normList rest) = _
                rw [IH v (hsz v (by simp)) (hmem v (by simp))]
                rw [IHl (fun w hw => hsz w (List.mem_cons_of_mem v hw))
                  (fun w hw => hmem w (List.mem_cons_of_mem v hw))]
                rfl
          rw [hbl]
          rfl
      | dict d =>
          have hnd2 : (d.map Prod.fst).Nodup ∧ nodupKeysEntries d = true := by
            have h := hnd
            rw [show nodupKeysVal (BValue.dict d) =
              (decide ((d.map Prod.fst).Nodup) && nodupKeysEntries d) from rfl,
              Bool.and_eq_true, decide_eq_true_eq] at h
            exact h
          have hsz : ∀ kv ∈ d, bsizeV (Prod.snd kv) ≤ n := by
            intro kv hkv
            have h1 := bsizeE_mem d kv hkv
            have h2 : bsizeV (BValue.dict d) = 1 + bsizeE d := rfl
            omega
          have hmem := nodupKeysEntries_mem hnd2.2
          have hbp : bencodePairs (normEntries d) = bencodePairs d := by
            clear hv hnd hnd2
            induction d with
            | nil => rfl
            | cons kv rest IHd =>
                rcases kv with ⟨k, v⟩
                show (k, bencode (normVal v)) :: bencodePairs (normEntries rest) = _
                rw [IH v (hsz (k, v) (by simp)) (hmem (k, v) (by simp))]
                rw [IHd (fun w hw => hsz w (List.mem_cons_of_mem (k, v) hw))
                  (fun w hw => hmem w (List.mem_cons_of_mem (k, v) hw))]
                rfl
          show 100 :: (bencodeDictBytes
            (pySortPairs (bencodePairs (pySortPairs (normEntries d)))) ++ [101]) = _
          rw [sort_bencodePairs (pySortPairs (normEntries d)), pySortPairs_idem,
            ← sort_bencodePairs, hbp]
          rfl

/-! ## Claims C2 and C1 -/

/-- C2: for every bencode value built from integers, byte strings, lists and
dictionaries with byte-string keys (with duplicate-free keys, as every
Python dict has), `bdecode (bencode v)` succeeds and yields a value that is
Python-`==` to `v` (dictionaries compare as maps), and re-encoding that
decoded value reproduces the encoder's bytes exactly — so
`bencode (bdecode b) = b` for every encoder output `b`, the keys being
emitted in lexicographic order. -/
theorem C2_bencode_roundtrip (v : BValue) (h : nodupKeysVal v = true) :
    bdecode (bencode v) = some (normVal v) ∧
    pyEq (normVal v) v = true ∧
    bencode (normVal v) = bencode v := by
  refine ⟨?_, pyEq_norm (bsizeV v) v (le_refl _) h,
    bencode_norm (bsizeV v) v (le_refl _) h⟩
  unfold bdecode
  have hd := (decode_bencode (2 * (bencode v).length + 1)).1 v [] h (by omega)
  rw [List.append_nil] at hd
  rw [hd]

/-- Witness for C2 at the spec's own example, the dictionary
`d3:cow3:moo4:spam4:eggse` extended with an unsorted sibling key. -/
theorem C2_bencode_roundtrip_witness :
    (let v : BValue := .dict [([115, 112, 97, 109], .str [101, 103, 103, 115]),
                              ([99, 111, 119], .str [109, 111, 111])]
     bdecode (bencode v) = some (normVal v) ∧
     pyEq (normVal v) v = true ∧
     bencode (normVal v) = bencode v) :=
  C2_bencode_roundtrip _ (by decide)

/-- A well-formed metainfo file whose `info` dictionary carries its keys in
non-canonical wire order (`pieces`, `name`, `length`, `piece length`):
`d8:announce9:utrackers4:infod6:pieces20:AA…A4:name1:x6:lengthi1e12:piece lengthi16384eee`.
`Torrent.load_from_path` accepts it (all guards pass). -/
def metainfoUnsortedInfo : List Nat :=
  [100, 56, 58, 97, 110, 110, 111, 117, 110, 99, 101, 57, 58, 117, 116, 114,
   97, 99, 107, 101, 114, 115, 52, 58, 105, 110, 102, 111, 100, 54, 58, 112,
   105, 101, 99, 101, 115, 50, 48, 58, 65, 65, 65, 65, 65, 65, 65, 65, 65,
   65, 65, 65, 65, 65, 65, 65, 65, 65, 65, 65, 52, 58, 110, 97, 109, 101,
   49, 58, 120, 54, 58, 108, 101, 110, 103, 116, 104, 105, 49, 101, 49, 50,
   58, 112, 105, 101, 99, 101, 32, 108, 101, 110, 103, 116, 104, 105, 49,
   54, 51, 56, 52, 101, 101, 101]

/-- C1 fails on the code: the byte string the code feeds to SHA-1 is the
re-encoded info dictionary (keys re-sorted), which on this accepted input
differs bit-for-bit from the on-wire byte range of the `info` value — the
claim explicitly requires the digest of the wire range, "not of a
re-encoded representation".  (Equality of the two SHA-1 digests would
therefore require a SHA-1 collision.) -/
theorem C1_info_hash_preimage_reencoded :
    infoHashPreimage metainfoUnsortedInfo =
      some [100, 54, 58, 108, 101, 110, 103, 116, 104, 105, 49, 101, 52, 58,
        110, 97, 109, 101, 49, 58, 120, 49, 50, 58, 112, 105, 101, 99, 101,
        32, 108, 101, 110, 103, 116, 104, 105, 49, 54, 51, 56, 52, 101, 54,
        58, 112, 105, 101, 99, 101, 115, 50, 48, 58, 65, 65, 65, 65, 65, 65,
        65, 65, 65, 65, 65, 65, 65, 65, 65, 65, 65, 65, 65, 65, 101] ∧
    wireInfoSlice metainfoUnsortedInfo =
      some [100, 54, 58, 112, 105, 101, 99, 101, 115, 50, 48, 58, 65, 65, 65,
        65, 65, 65, 65, 65, 65, 65, 65, 65, 65, 65, 65, 65, 65, 65, 65, 65,
        52, 58, 110, 97, 109, 101, 49, 58, 120, 54, 58, 108, 101, 110, 103,
        116, 104, 105, 49, 101, 49, 50, 58, 112, 105, 101, 99, 101, 32, 108,
        101, 110, 103, 116, 104, 105, 49, 54, 51, 56, 52, 101, 101] ∧
    infoHashPreimage metainfoUnsortedInfo ≠ wireInfoSlice metainfoUnsortedInfo := by
  decide

/-! ## Claim C9: PiecesManager._load_files file-segment map -/

/-- One entry of `PiecesManager.files` (src/pieces_manager.py `_load_files`,
lines 208-228): the dict with keys `length`, `piece_index`, `file_offset`,
`piece_offset` and `path`; the path string is modelled by the file's index
in `file_names`. -/
structure FileSegment where
  length : Nat
  piece_index : Nat
  file_offset : Nat
  piece_offset : Nat
  path : Nat

/-- Piece sizes built by `PiecesManager._generate_pieces`
(src/pieces_manager.py lines 142-180): `number_of_pieces = ceil(total/plen)`
pieces (src/torrent.py lines 198-205), each of size `piece_length` except
the last, whose size is `total - last * piece_length` with a fallback to
`piece_length` when that is not positive. -/
def pieceSizes (total plen : Nat) : List Nat :=
  (List.range ((total + plen - 1) / plen)).map (fun i =>
    if i = (total + plen - 1) / plen - 1 then
      if total ≤ ((total + plen - 1) / plen - 1) * plen then plen
      else total - ((total + plen - 1) / plen - 1) * plen
    else plen)

/-- The inner `while current_size_file > 0` loop of `PiecesManager._load_files`
(src/pieces_manager.py lines 196-233), one fuel unit per iteration; the
`piece_index >= len(self.pieces)` safety break returns the segments emitted so
far.  Python's `piece_size` is an int; under the loop invariant
`piece_size_used <= sizes[piece_index]` the Nat subtraction below agrees with
it, and the case where it would go negative (an infinite loop in Python) ends
in fuel exhaustion, returning `none`.  `int(piece_offset / piece_length)` is
Nat division.  Returns the emitted segments with the final
`(piece_offset, piece_size_used)` state. -/
def loadLoop (sizes : List Nat) (plen path : Nat) :
    Nat → Nat → Nat → Nat → Nat → Option (List FileSegment × Nat × Nat)
  | 0, _, _, _, _ => none
  | fuel + 1, current, file_offset, po, psu =>
    if current = 0 then some ([], po, psu)
    else
      let pi := po / plen
      if pi < sizes.length then
        let psize := sizes.getD pi 0 - psu
        if current < psize then
          match loadLoop sizes plen path fuel 0 (file_offset + current)
              (po + current) (psu + current) with
          | some (segs, po2, psu2) =>
              some (⟨current, pi, file_offset, psu, path⟩ :: segs, po2, psu2)
          | none => none
        else
          match loadLoop sizes plen path fuel (current - psize)
              (file_offset + psize) (po + psize) 0 with
          | some (segs, po2, psu2) =>
              some (⟨psize, pi, file_offset, psu, path⟩ :: segs, po2, psu2)
          | none => none
      else some ([], po, psu)

/-- The `for file_info in self.torrent.file_names` loop of
`PiecesManager._load_files`, threading `(piece_offset, piece_size_used)`
across files; each file's path is modelled by its index. -/
def load_files_aux (sizes : List Nat) (plen : Nat) :
    List Nat → Nat → Nat → Nat → Option (List FileSegment)
  | [], _, _, _ => some []
  | L :: rest, path, po, psu =>
    match loadLoop sizes plen path (L + 1) L 0 po psu with
    | some (segs, po2, psu2) =>
      match load_files_aux sizes plen rest (path + 1) po2 psu2 with
      | some more => some (segs ++ more)
      | none => none
    | none => none

/-- `PiecesManager._load_files` (src/pieces_manager.py lines 182-236) for a
torrent with the given file lengths and piece length: builds the file-segment
map starting from `piece_offset = piece_size_used = 0` over the pieces of
`_generate_pieces`. -/
def load_files (fileLengths : List Nat) (plen : Nat) : Option (List FileSegment) :=
  load_files_aux (pieceSizes fileLengths.sum plen) plen fileLengths 0 0 0

/-- Global payload position at which a file segment starts: its piece's start
(`piece_index * piece_length`; pieces lie back to back and all but the last
have size `piece_length`) plus its offset inside the piece. -/
def segStart (plen : Nat) (s : FileSegment) : Nat :=
  s.piece_index * plen + s.piece_offset

/-- `s` covers global payload byte `x`. -/
def gCovers (plen x : Nat) (s : FileSegment) : Bool :=
  decide (segStart plen s ≤ x ∧ x < segStart plen s + s.length)

/-- `s` covers byte `x` of file `p`. -/
def fCovers (p x : Nat) (s : FileSegment) : Bool :=
  decide (s.path = p ∧ s.file_offset ≤ x ∧ x < s.file_offset + s.length)

/-- `s` covers offset `x` of piece `i`. -/
def pCovers (i x : Nat) (s : FileSegment) : Bool :=
  decide (s.piece_index = i ∧ s.piece_offset ≤ x ∧ x < s.piece_offset + s.length)

/-- A segment is well formed for a piece-size table: its piece exists, it lies
inside that piece, and it is non-empty. -/
def SegWF (sizes : List Nat) (s : FileSegment) : Prop :=
  s.piece_index < sizes.length ∧
  s.piece_offset + s.length ≤ sizes.getD s.piece_index 0 ∧
  0 < s.length

theorem pieceSizes_length (total plen : Nat) :
    (pieceSizes total plen).length = (total + plen - 1) / plen := by
  simp [pieceSizes]

theorem ceil_mul_bounds (plen T : Nat) (hp : 0 < plen) (hT : 0 < T) :
    ((T + plen - 1) / plen - 1) * plen < T ∧ T ≤ ((T + plen - 1) / plen) * plen := by
  have hdm := Nat.div_add_mod (T + plen - 1) plen
  have hmlt : (T + plen - 1) % plen < plen := Nat.mod_lt _ hp
  have hq1 : 1 ≤ (T + plen - 1) / plen := by
    rcases Nat.eq_zero_or_pos ((T + plen - 1) / plen) with h0 | h1
    · rw [h0] at hdm; omega
    · exact h1
  obtain ⟨q, hq⟩ := Nat.exists_eq_add_of_le hq1
  rw [hq] at hdm ⊢
  have hc : plen * (1 + q) = plen + q * plen := by ring
  rw [hc] at hdm
  have h2 : (1 + q - 1) * plen = q * plen := by simp
  have h3 : (1 + q) * plen = plen + q * plen := by ring
  rw [h2, h3]
  omega

theorem pieceSizes_getD (total plen i : Nat) (h : i < (total + plen - 1) / plen) :
    (pieceSizes total plen).getD i 0 =
      if i = (total + plen - 1) / plen - 1 then
        if total ≤ ((total + plen - 1) / plen - 1) * plen then plen
        else total - ((total + plen - 1) / plen - 1) * plen
      else plen := by
  unfold pieceSizes
  rw [List.getD_eq_getElem?_getD, List.getElem?_map, List.getElem?_range h]
  rfl

theorem pieceSizes_facts (plen T : Nat) (hp : 0 < plen) (hT : 0 < T) (i : Nat)
    (hi : i < (T + plen - 1) / plen) :
    0 < (pieceSizes T plen).getD i 0 ∧
    (pieceSizes T plen).getD i 0 ≤ plen ∧
    i * plen + (pieceSizes T plen).getD i 0 ≤ T ∧
    (i + 1 < (T + plen - 1) / plen → (pieceSizes T plen).getD i 0 = plen) ∧
    (i + 1 = (T + plen - 1) / plen → i * plen + (pieceSizes T plen).getD i 0 = T) := by
  have hb := ceil_mul_bounds plen T hp hT
  have hn1 : 1 ≤ (T + plen - 1) / plen := by omega
  have hstep : ((T + plen - 1) / plen - 1) * plen + plen = ((T + plen - 1) / plen) * plen := by
    obtain ⟨m, hm⟩ := Nat.exists_eq_add_of_le hn1
    rw [hm]
    have h1 : 1 + m - 1 = m := by omega
    rw [h1]; ring
  rw [pieceSizes_getD T plen i hi]
  by_cases hlast : i = (T + plen - 1) / plen - 1
  · rw [if_pos hlast, if_neg (by omega)]
    subst hlast
    refine ⟨by omega, by omega, by omega, ?_, by intro h5; omega⟩
    intro hcon; omega
  · rw [if_neg hlast]
    have hi1 : i + 1 ≤ (T + plen - 1) / plen - 1 := by omega
    have hm1 : (i + 1) * plen ≤ ((T + plen - 1) / plen - 1) * plen :=
      Nat.mul_le_mul_right plen hi1
    have hm2 : (i + 1) * plen = i * plen + plen := by ring
    refine ⟨hp, le_refl _, by omega, fun _ => rfl, ?_⟩
    intro h5; omega

theorem loadLoop_spec (plen T : Nat) (hp : 0 < plen) :
    ∀ fuel current fo po psu path,
      current < fuel →
      po + current ≤ T →
      (psu = po % plen ∨ (po = T ∧ psu = 0)) →
      ∃ segs psu2,
        loadLoop (pieceSizes T plen) plen path fuel current fo po psu =
          some (segs, po + current, psu2) ∧
        (psu2 = (po + current) % plen ∨ (po + current = T ∧ psu2 = 0)) ∧
        (∀ x, segs.countP (gCovers plen x) =
            if po ≤ x ∧ x < po + current then 1 else 0) ∧
        (∀ q x, segs.countP (fCovers q x) =
            if q = path ∧ fo ≤ x ∧ x < fo + current then 1 else 0) ∧
        (∀ s ∈ segs, SegWF (pieceSizes T plen) s ∧ s.path = path) := by
  intro fuel
  induction fuel with
  | zero =>
    intro current fo po psu path hf _ _
    exact absurd hf (Nat.not_lt_zero _)
  | succ f IH =>
    intro current fo po psu path hf hle hinv
    by_cases hc : current = 0
    · subst hc
      refine ⟨[], psu, by simp [loadLoop], by simpa using hinv, ?_, ?_, ?_⟩
      · intro x; rw [List.countP_nil, if_neg (by omega)]
      · intro q x; rw [List.countP_nil, if_neg (by omega)]
      · intro s hs; exact absurd hs (List.not_mem_nil s)
    · have hcur : 0 < current := Nat.pos_of_ne_zero hc
      have hpoT : po < T := by omega
      have hT : 0 < T := by omega
      have hpsu : psu = po % plen := by
        rcases hinv with h | ⟨h1, h2⟩
        · exact h
        · omega
      have hceil := ceil_mul_bounds plen T hp hT
      have hpin : po / plen < (T + plen - 1) / plen := by
        have h1 : po < plen * ((T + plen - 1) / plen) := by
          have := hceil.2
          have h2 : ((T + plen - 1) / plen) * plen = plen * ((T + plen - 1) / plen) :=
            Nat.mul_comm _ _
          omega
        exact Nat.div_lt_of_lt_mul h1
      have hlen : po / plen < (pieceSizes T plen).length := by
        rw [pieceSizes_length]; exact hpin
      have hsplit : plen * (po / plen) + po % plen = po := Nat.div_add_mod po plen
      have hcomm : plen * (po / plen) = (po / plen) * plen := Nat.mul_comm _ _
      have hmod : po % plen < plen := Nat.mod_lt po hp
      have hfacts := pieceSizes_facts plen T hp hT (po / plen) hpin
      have hpsult : psu < (pieceSizes T plen).getD (po / plen) 0 := by
        rcases Nat.lt_or_ge (po / plen + 1) ((T + plen - 1) / plen) with hlt | hge
        · have h4 := hfacts.2.2.2.1 hlt
          rw [hpsu, h4]; exact hmod
        · have hlasteq : po / plen + 1 = (T + plen - 1) / plen := by omega
          have h5 := hfacts.2.2.2.2 hlasteq
          omega
      by_cases hb : current < (pieceSizes T plen).getD (po / plen) 0 - psu
      · -- the file ends inside the current piece
        obtain ⟨segs1, psu2, heq1, hinv1, hg1, hf1, hwf1⟩ :=
          IH 0 (fo + current) (po + current) (psu + current) path (by omega) (by omega)
            (Or.inl (by
              have hlt2 : psu + current < plen := by
                have := hfacts.2.1
                omega
              have hrepr : po + current = psu + current + (po / plen) * plen := by omega
              rw [hrepr, Nat.add_mul_mod_self_right, Nat.mod_eq_of_lt hlt2]))
        rw [Nat.add_zero] at heq1 hinv1 hg1
        refine ⟨⟨current, po / plen, fo, psu, path⟩ :: segs1, psu2, ?_, hinv1, ?_, ?_, ?_⟩
        · simp only [loadLoop, if_neg hc]
          rw [if_pos hlen, if_pos hb, heq1]
        · intro x
          rw [List.countP_cons, hg1 x]
          simp only [gCovers, segStart, decide_eq_true_eq]
          split_ifs <;> omega
        · intro q x
          rw [List.countP_cons, hf1 q x]
          simp only [fCovers, decide_eq_true_eq]
          split_ifs <;> omega
        · intro s hs
          rcases List.mem_cons.mp hs with rfl | hs'
          · exact ⟨⟨hlen, by dsimp only [SegWF]; omega, hcur⟩, rfl⟩
          · exact hwf1 s hs'
      · -- the file continues past the end of the current piece
        have hble : (pieceSizes T plen).getD (po / plen) 0 - psu ≤ current := Nat.le_of_not_lt hb
        have hpsz : 0 < (pieceSizes T plen).getD (po / plen) 0 - psu := by omega
        obtain ⟨segs1, psu2, heq1, hinv1, hg1, hf1, hwf1⟩ :=
          IH (current - ((pieceSizes T plen).getD (po / plen) 0 - psu))
            (fo + ((pieceSizes T plen).getD (po / plen) 0 - psu))
            (po + ((pieceSizes T plen).getD (po / plen) 0 - psu)) 0 path
            (by omega) (by omega)
            (by
              rcases Nat.lt_or_ge (po / plen + 1) ((T + plen - 1) / plen) with hlt | hge
              · left
                have h4 := hfacts.2.2.2.1 hlt
                have hrepr : po + ((pieceSizes T plen).getD (po / plen) 0 - psu) =
                    (po / plen + 1) * plen := by
                  have hd : (po / plen + 1) * plen = (po / plen) * plen + plen := by ring
                  omega
                rw [hrepr]
                exact (Nat.mul_mod_left _ _).symm
              · right
                have hlasteq : po / plen + 1 = (T + plen - 1) / plen := by omega
                have h5 := hfacts.2.2.2.2 hlasteq
                exact ⟨by omega, rfl⟩)
        have hpoeq : po + ((pieceSizes T plen).getD (po / plen) 0 - psu) +
            (current - ((pieceSizes T plen).getD (po / plen) 0 - psu)) = po + current := by
          omega
        rw [hpoeq] at heq1 hinv1 hg1
        refine ⟨⟨(pieceSizes T plen).getD (po / plen) 0 - psu, po / plen, fo, psu, path⟩ :: segs1,
          psu2, ?_, hinv1, ?_, ?_, ?_⟩
        · simp only [loadLoop, if_neg hc]
          rw [if_pos hlen, if_neg hb, heq1]
        · intro x
          rw [List.countP_cons, hg1 x]
          simp only [gCovers, segStart, decide_eq_true_eq]
          split_ifs <;> omega
        · intro q x
          rw [List.countP_cons, hf1 q x]
          simp only [fCovers, decide_eq_true_eq]
          split_ifs <;> omega
        · intro s hs
          rcases List.mem_cons.mp hs with rfl | hs'
          · exact ⟨⟨hlen, by dsimp only [SegWF]; omega, hpsz⟩, rfl⟩
          · exact hwf1 s hs'

theorem load_files_aux_spec (plen T : Nat) (hp : 0 < plen) :
    ∀ lens path po psu,
      po + lens.sum ≤ T →
      (psu = po % plen ∨ (po = T ∧ psu = 0)) →
      ∃ segs,
        load_files_aux (pieceSizes T plen) plen lens path po psu = some segs ∧
        (∀ x, segs.countP (gCovers plen x) =
            if po ≤ x ∧ x < po + lens.sum then 1 else 0) ∧
        (∀ k x, k < lens.length →
            segs.countP (fCovers (path + k) x) = if x < lens.getD k 0 then 1 else 0) ∧
        (∀ q x, q < path ∨ path + lens.length ≤ q → segs.countP (fCovers q x) = 0) ∧
        (∀ s ∈ segs, SegWF (pieceSizes T plen) s) := by
  intro lens
  induction lens with
  | nil =>
    intro path po psu hle hinv
    refine ⟨[], rfl, ?_, ?_, ?_, ?_⟩
    · intro x
      rw [List.countP_nil, if_neg (by simp only [List.sum_nil]; omega)]
    · intro k x hk
      exact absurd hk (by simp)
    · intro q x _
      rw [List.countP_nil]
    · intro s hs; exact absurd hs (List.not_mem_nil s)
  | cons L rest IH =>
    intro path po psu hle hinv
    have hsum : (L :: rest).sum = L + rest.sum := by simp
    rw [hsum] at hle
    obtain ⟨segs1, psu2, heq1, hinv1, hg1, hf1, hwf1⟩ :=
      loadLoop_spec plen T hp (L + 1) L 0 po psu path (by omega) (by omega) hinv
    obtain ⟨segs2, heq2, hg2, hf2, hz2, hwf2⟩ :=
      IH (path + 1) (po + L) psu2 (by omega) hinv1
    refine ⟨segs1 ++ segs2, ?_, ?_, ?_, ?_, ?_⟩
    · simp only [load_files_aux]
      rw [heq1]
      dsimp only
      rw [heq2]
    · intro x
      rw [List.countP_append, hg1 x, hg2 x, hsum]
      split_ifs <;> omega
    · intro k x hk
      rw [List.countP_append]
      cases k with
      | zero =>
        rw [Nat.add_zero, hf1 path x, hz2 path x (Or.inl (by omega)), List.getD_cons_zero]
        split_ifs <;> omega
      | succ k2 =>
        have hk2 : k2 < rest.length := by simpa using hk
        rw [hf1 (path + (k2 + 1)) x]
        have hsh : path + (k2 + 1) = path + 1 + k2 := by omega
        rw [hsh, hf2 k2 x hk2, List.getD_cons_succ]
        split_ifs <;> omega
    · intro q x hq
      simp only [List.length_cons] at hq
      rw [List.countP_append, hf1 q x, hz2 q x (by omega)]
      split_ifs <;> omega
    · intro s hs
      rcases List.mem_append.mp hs with h | h
      · exact (hwf1 s h).1
      · exact hwf2 s h

/-- C9: for any list of file lengths and any positive piece length,
`_load_files` succeeds without hitting its safety break and its segment list
exactly partitions the payload: every global payload byte below the total
length is covered by exactly one segment (a segment starting at
`piece_index * piece_length + piece_offset`) and none beyond it is; for every
piece the segments assigned to it cover each offset below that piece's size
exactly once and nothing beyond it; and for every file the segments assigned
to it cover each offset below the file's declared length exactly once and
nothing beyond it. -/
theorem C9_load_files_partition (fileLengths : List Nat) (plen : Nat) (hp : 0 < plen) :
    ∃ segs, load_files fileLengths plen = some segs ∧
      (∀ x, x < fileLengths.sum → segs.countP (gCovers plen x) = 1) ∧
      (∀ x, fileLengths.sum ≤ x → segs.countP (gCovers plen x) = 0) ∧
      (∀ i x, i < (pieceSizes fileLengths.sum plen).length →
          x < (pieceSizes fileLengths.sum plen).getD i 0 →
          segs.countP (pCovers i x) = 1) ∧
      (∀ i x, (pieceSizes fileLengths.sum plen).getD i 0 ≤ x →
          segs.countP (pCovers i x) = 0) ∧
      (∀ k x, k < fileLengths.length → x < fileLengths.getD k 0 →
          segs.countP (fCovers k x) = 1) ∧
      (∀ k x, fileLengths.getD k 0 ≤ x → segs.countP (fCovers k x) = 0) := by
  obtain ⟨segs, heq, hg, hf, hz, hwf⟩ :=
    load_files_aux_spec plen fileLengths.sum hp fileLengths 0 0 0 (by omega)
      (Or.inl (Nat.zero_mod plen).symm)
  refine ⟨segs, heq, ?_, ?_, ?_, ?_, ?_, ?_⟩
  · intro x hx; rw [hg x, if_pos (by omega)]
  · intro x hx; rw [hg x, if_neg (by omega)]
  · intro i x hi hx
    have hT : 0 < fileLengths.sum := by
      rcases Nat.eq_zero_or_pos fileLengths.sum with h0 | h1
      · rw [h0] at hi
        have hz0 : (pieceSizes 0 plen).length = 0 := by
          rw [pieceSizes_length]
          exact Nat.div_eq_of_lt (by omega)
        rw [hz0] at hi
        exact absurd hi (Nat.not_lt_zero i)
      · exact h1
    have hi2 : i < (fileLengths.sum + plen - 1) / plen := by
      rwa [pieceSizes_length] at hi
    have hfacts := pieceSizes_facts plen fileLengths.sum hp hT i hi2
    have hcong : segs.countP (pCovers i x) = segs.countP (gCovers plen (i * plen + x)) := by
      refine List.countP_congr fun s hs => ?_
      obtain ⟨hjlt, hjlen, hjpos⟩ := hwf s hs
      have hjlt2 : s.piece_index < (fileLengths.sum + plen - 1) / plen := by
        rwa [pieceSizes_length] at hjlt
      have hszj := (pieceSizes_facts plen fileLengths.sum hp hT s.piece_index hjlt2).2.1
      have hszi := hfacts.2.1
      simp only [pCovers, gCovers, segStart, decide_eq_true_eq]
      by_cases hij : s.piece_index = i
      · rw [hij] at hjlen ⊢
        constructor
        · rintro ⟨_, h2, h3⟩; omega
        · rintro ⟨h1, h2⟩; exact ⟨rfl, by omega, by omega⟩
      · have hlink1 : (s.piece_index + 1) * plen = s.piece_index * plen + plen := by ring
        have hlink2 : (i + 1) * plen = i * plen + plen := by ring
        constructor
        · rintro ⟨h1, _⟩; exact absurd h1 hij
        · rintro ⟨h1, h2⟩
          exfalso
          rcases Nat.lt_or_ge s.piece_index i with hji | hij2
          · have hm : (s.piece_index + 1) * plen ≤ i * plen := Nat.mul_le_mul_right plen hji
            omega
          · have hij3 : i + 1 ≤ s.piece_index := by omega
            have hm : (i + 1) * plen ≤ s.piece_index * plen := Nat.mul_le_mul_right plen hij3
            omega
    rw [hcong, hg (i * plen + x), if_pos ?_]
    have h3 := hfacts.2.2.1
    omega
  · intro i x hx
    refine List.countP_eq_zero.mpr fun s hs => ?_
    obtain ⟨hjlt, hjlen, hjpos⟩ := hwf s hs
    simp only [pCovers, decide_eq_true_eq]
    rintro ⟨h1, h2, h3⟩
    rw [h1] at hjlen
    omega
  · intro k x hk hx
    have h := hf k x hk
    rw [Nat.zero_add] at h
    rw [h, if_pos hx]
  · intro k x hx
    by_cases hk : k < fileLengths.length
    · have h := hf k x hk
      rw [Nat.zero_add] at h
      rw [h, if_neg (by omega)]
    · exact hz k x (Or.inr (by omega))

/-- Witness for C9 at the spec's worked example: files of lengths
10000 and 30000 bytes with piece length 16384. -/
theorem C9_load_files_partition_witness :
    ∃ segs, load_files [10000, 30000] 16384 = some segs ∧
      (∀ x, x < List.sum [10000, 30000] → segs.countP (gCovers 16384 x) = 1) ∧
      (∀ x, List.sum [10000, 30000] ≤ x → segs.countP (gCovers 16384 x) = 0) ∧
      (∀ i x, i < (pieceSizes (List.sum [10000, 30000]) 16384).length →
          x < (pieceSizes (List.sum [10000, 30000]) 16384).getD i 0 →
          segs.countP (pCovers i x) = 1) ∧
      (∀ i x, (pieceSizes (List.sum [10000, 30000]) 16384).getD i 0 ≤ x →
          segs.countP (pCovers i x) = 0) ∧
      (∀ k x, k < List.length [10000, 30000] → x < List.getD [10000, 30000] k 0 →
          segs.countP (fCovers k x) = 1) ∧
      (∀ k x, List.getD [10000, 30000] k 0 ≤ x → segs.countP (fCovers k x) = 0) :=
  C9_load_files_partition [10000, 30000] 16384 (by decide)

end Spec2Proof
